import Mathlib

/-!
Verification of the in-browser virtual file-system model implemented in
`src/hooks/use-file-manager.ts`.

The store is a JavaScript `Map<string, FileNode>` keyed by node id, iterated in
insertion order; it is embedded here as a `List FileNode` in the same order.
JavaScript strings (paths, names, ids, timestamps) are embedded as `List Char`.
Each mutation runs inside an immer `produce` block: a thrown exception aborts
the whole block and the previous store is kept, so a mutation is embedded as a
function returning `Except FmError Store`, where an `error` result means the
store is unchanged.  Readings of the ambient clock (`new Date().getTime()`,
`new Date().toISOString()`) are passed in as explicit parameters.
-/

namespace FileManager

/-- JavaScript strings are embedded as their character lists. -/
abbrev Str := List Char

/-- Shorthand for the root path string `"/"`. -/
def slash : Str := ['/']

/-- The `FileType` union from `lib/types`: `'folder' | 'image' | 'pdf' | 'text' | 'other'`. -/
inductive FileType where
  | folder
  | image
  | pdf
  | text
  | other
deriving DecidableEq

/-- The `FileNode` record from `lib/types`, with the fields used by the hook.
`modifiedAt` is the ISO timestamp string, `content` and `url` are the optional
payload fields (`undefined` is embedded as `none`). -/
structure FileNode where
  id : Str
  name : Str
  type : FileType
  path : Str
  parentId : Option Str
  modifiedAt : Str
  size : Nat
  content : Option Str
  url : Option Str
deriving DecidableEq

/-- The node store: the `Map<string, FileNode>` in iteration (insertion) order. -/
abbrev Store := List FileNode

/-- Error taxonomy of the mutation engine.  The source throws `Error` with a
distinct message at each site; the constructors record which site threw:
`validation` = "Name cannot be empty.", `collision` = "... already exists ...",
`notFound` = "Destination folder does not exist.",
`cyclicMove` = "Cannot move a folder into itself.". -/
inductive FmError where
  | validation
  | collision
  | notFound
  | cyclicMove
deriving DecidableEq

/-- `draft.get(id)`: first (and, with unique ids, only) entry with this id. -/
def findById : Store → Str → Option FileNode
  | [], _ => none
  | n :: s, i => if n.id = i then some n else findById s i

/-- First entry of the store whose `path` equals `p` (linear scan order). -/
def findFirstByPath : Store → Str → Option FileNode
  | [], _ => none
  | n :: s, p => if n.path = p then some n else findFirstByPath s p

/-- `findNodeByPath` from the source: `'/'` always resolves to no node,
otherwise linear scan for the first node whose `path` equals the argument. -/
def findNodeByPath (s : Store) (p : Str) : Option FileNode :=
  if p = slash then none else findFirstByPath s p

/-- `Map.set(id, node)`: replaces the entry with this id in place if present,
otherwise appends the new entry at the end. -/
def mapSet : Store → FileNode → Store
  | [], n => [n]
  | m :: s, n => if m.id = n.id then n :: s else m :: mapSet s n

/-- Index of the last `'/'` in a string (JavaScript `lastIndexOf('/')`),
`none` when there is no slash (JavaScript `-1`). -/
def lastSlashIdx : Str → Option Nat
  | [] => none
  | c :: cs =>
    match lastSlashIdx cs with
    | some i => some (i + 1)
    | none => if c = '/' then some 0 else none

/-- `path.substring(0, path.lastIndexOf('/')) || '/'` from the source: the text
before the last slash, with the falsy empty string replaced by `'/'`.
(JavaScript `substring(0, -1)` clamps to the empty string.) -/
def parentPathOf (p : Str) : Str :=
  let t := match lastSlashIdx p with
    | some i => p.take i
    | none => []
  if t = [] then slash else t

/-- The path template used at every call site:
`` dir === '/' ? `/${name}` : `${dir}/${name}` ``. -/
def joinPath (dir name : Str) : Str :=
  if dir = slash then '/' :: name else dir ++ '/' :: name

/-- Body of the descendant-cascade loop shared by `renameNode` and `moveNode`:
a node whose path starts with `oldPath + '/'` has the `oldPath` prefix replaced
by `newPath` (`newPath + file.path.substring(oldPath.length)`). -/
def cascadeRewrite (oldPath newPath : Str) (f : FileNode) : FileNode :=
  if oldPath ++ ['/'] <+: f.path then
    { f with path := newPath ++ f.path.drop oldPath.length }
  else f

/-- `createNode(name, type)` from the source, with the ambient current
directory `dir` (the hook's `currentPath` state) and the two clock readings
(`nowMs` = `new Date().getTime().toString()`, used as the new id;
`nowIso` = `new Date().toISOString()`) passed explicitly. -/
def createNode (s : Store) (dir name : Str) (t : FileType) (nowMs nowIso : Str) :
    Except FmError Store :=
  if name = [] then .error .validation
  else
    let newPath := joinPath dir name
    if (findNodeByPath s newPath).isSome then .error .collision
    else
      let parentNode := findNodeByPath s dir
      .ok (mapSet s
        { id := nowMs
          name := name
          type := t
          path := newPath
          parentId := parentNode.map (·.id)
          modifiedAt := nowIso
          size := 0
          content := if t = .text then some [] else none
          url := none })

/-- `getFileType` from the source: classify a MIME type string. -/
def getFileType (mime : Str) : FileType :=
  if "image/".data <+: mime then .image
  else if mime = "application/pdf".data then .pdf
  else if "text/".data <+: mime then .text
  else .other

/-- The synchronous part of `uploadFile`: the collision check and the
insertion of the pre-built node.  The asynchronous `FileReader` completion that
later fills `content`/`url` is outside the core (spec section 5) and is not
modelled. -/
def uploadFile (s : Store) (dir fname mime : Str) (fsize : Nat)
    (lastModIso nowMs : Str) : Except FmError Store :=
  let newPath := joinPath dir fname
  if (findNodeByPath s newPath).isSome then .error .collision
  else
    let parentNode := findNodeByPath s dir
    .ok (mapSet s
      { id := nowMs
        name := fname
        type := getFileType mime
        path := newPath
        parentId := parentNode.map (·.id)
        modifiedAt := lastModIso
        size := fsize
        content := none
        url := none })

/-- `renameNode(id, newName)` from the source.  The empty-name check happens
before the store is read; an absent id silently leaves the store unchanged
(`if (!node) return;`).  The collision scan skips the node itself.  After the
node is updated, a single pass over all entries (which therefore sees the
already-updated node) rewrites every path extending `oldPath + '/'` — the pass
only runs when the node is a folder. -/
def renameNode (s : Store) (id newName nowIso : Str) : Except FmError Store :=
  if newName = [] then .error .validation
  else
    match findById s id with
    | none => .ok s
    | some node =>
      let parentPath := parentPathOf node.path
      let newPath := joinPath parentPath newName
      if ∃ f ∈ s, f.path = newPath ∧ f.id ≠ id then .error .collision
      else
        let oldPath := node.path
        let s1 := s.map fun f =>
          if f.id = id then
            { f with name := newName, path := newPath, modifiedAt := nowIso }
          else f
        .ok (if node.type = .folder then s1.map (cascadeRewrite oldPath newPath) else s1)

/-- Membership test of the deletion closure built by `deleteNodes`: an id that
was listed, or any node whose path extends a listed folder's path by `'/'`.
The source builds this closure with `findChildrenRecursive`, which already adds
every node matching `folderPath + '/'` as a string prefix at the top level of
the recursion (the prefix test matches descendants at every depth), so the
recursive walk into subfolders adds nothing further and the closure equals this
one-level prefix filter. -/
def inDeleteSet (s : Store) (ids : List Str) (f : FileNode) : Bool :=
  ids.contains f.id ||
    ids.any fun i =>
      match findById s i with
      | some n => n.type == .folder && (n.path ++ ['/']).isPrefixOf f.path
      | none => false

/-- `deleteNodes(ids)` from the source: remove the full closure in one step.
It never fails; absent ids contribute nothing to the closure. -/
def deleteNodes (s : Store) (ids : List Str) : Store :=
  s.filter fun f => ! inDeleteSet s ids f

/-- `moveNode(id, newParentPath)` from the source.  An absent id silently
leaves the store unchanged; the destination must be `'/'` or resolve to some
existing node (of any kind); the cyclic check is a plain string-prefix test
`newParentPath.startsWith(node.path)`; the collision check runs while the node
still holds its old path; then the node and (for folders) its prefix
descendants are rewritten exactly as in `renameNode`. -/
def moveNode (s : Store) (id dest nowIso : Str) : Except FmError Store :=
  match findById s id with
  | none => .ok s
  | some node =>
    let parentNode := findNodeByPath s dest
    if dest ≠ slash ∧ parentNode = none then .error .notFound
    else if node.type = .folder ∧ node.path <+: dest then .error .cyclicMove
    else
      let newPath := joinPath dest node.name
      if (findNodeByPath s newPath).isSome then .error .collision
      else
        let oldPath := node.path
        let s1 := s.map fun f =>
          if f.id = id then
            { f with path := newPath, parentId := parentNode.map (·.id),
                     modifiedAt := nowIso }
          else f
        .ok (if node.type = .folder then s1.map (cascadeRewrite oldPath newPath) else s1)

/-- Sort key union `'name' | 'modifiedAt' | 'size'` from `lib/types`. -/
inductive SortKey where
  | name
  | modifiedAt
  | size
deriving DecidableEq

/-- Sort direction union from `lib/types`. -/
inductive SortDirection where
  | ascending
  | descending
deriving DecidableEq

/-- `SortConfig` from `lib/types`. -/
structure SortConfig where
  key : SortKey
  direction : SortDirection
deriving DecidableEq

/-- Three-way lexicographic comparison of strings by code point, the embedding
of `String.prototype.localeCompare` (locale-dependent in general; code-point
order is its behaviour on the ASCII names and ISO timestamps this store
holds). -/
def lexCompare : Str → Str → Int
  | [], [] => 0
  | [], _ :: _ => -1
  | _ :: _, [] => 1
  | a :: as, b :: bs => if a < b then -1 else if b < a then 1 else lexCompare as bs

/-- The per-key comparison value of the sort callback: `localeCompare` for the
two string-valued keys, numeric difference for `size`. -/
def keyCompare (k : SortKey) (a b : FileNode) : Int :=
  match k with
  | .name => lexCompare a.name b.name
  | .modifiedAt => lexCompare a.modifiedAt b.modifiedAt
  | .size => (a.size : Int) - (b.size : Int)

/-- The comparator passed to `Array.prototype.sort` in `currentFiles`:
folders strictly first, then the configured key, negated for descending. -/
def nodeCompare (cfg : SortConfig) (a b : FileNode) : Int :=
  if a.type = .folder ∧ b.type ≠ .folder then -1
  else if a.type ≠ .folder ∧ b.type = .folder then 1
  else if cfg.direction = .ascending then keyCompare cfg.key a b
  else -(keyCompare cfg.key a b)

/-- Insert an element into an already-sorted list, before the first element it
does not compare strictly after (so before elements comparing equal that come
from later input positions — the stable position). -/
def insertSorted (cmp : FileNode → FileNode → Int) (x : FileNode) :
    List FileNode → List FileNode
  | [] => [x]
  | y :: ys => if cmp x y ≤ 0 then x :: y :: ys else y :: insertSorted cmp x ys

/-- Stable insertion sort.  `Array.prototype.sort` is required to be stable
(ES2019); for a consistent comparator such as `nodeCompare` every stable sort
produces the same output, so this is a faithful embedding of the source's
sort call. -/
def sortByCmp (cmp : FileNode → FileNode → Int) : List FileNode → List FileNode
  | [] => []
  | x :: xs => insertSorted cmp x (sortByCmp cmp xs)

/-- `toLowerCase`, embedded per character. -/
def toLowerStr (s : Str) : Str := s.map Char.toLower

/-- Membership step of `currentFiles`: nodes whose parent path (computed from
the path string exactly as in the source) equals the current directory. -/
def filesInDir (s : Store) (currentPath : Str) : Store :=
  s.filter fun f => parentPathOf f.path == currentPath

/-- Search step of `currentFiles`: with a non-empty term, keep nodes whose
lower-cased name contains the lower-cased term as a substring. -/
def searchFiltered (l : Store) (term : Str) : Store :=
  if term = [] then l
  else l.filter fun f => decide (toLowerStr term <:+: toLowerStr f.name)

/-- The `currentFiles` projection: membership filter, search filter, then the
folder-first sort with the configured key and direction. -/
def currentFiles (s : Store) (currentPath term : Str) (cfg : SortConfig) : Store :=
  sortByCmp (nodeCompare cfg) (searchFiltered (filesInDir s currentPath) term)

/-- Parent-link consistency of one node, as stated in claim C1 and spec
section 3, invariant 2: the path is the parent node's path plus `'/'` plus the
name, or `'/'` plus the name for a top-level node. -/
def parentEq (s : Store) (n : FileNode) : Prop :=
  (n.parentId = none ∧ n.path = '/' :: n.name) ∨
    (∃ m ∈ s, n.parentId = some m.id ∧ n.path = m.path ++ '/' :: n.name)

/-- The invariant pair stated in claim C1: path uniqueness (spec invariant 1)
and the parent-path equation (spec invariant 2). -/
def ClaimInv (s : Store) : Prop :=
  (s.map (·.path)).Nodup ∧ ∀ n ∈ s, parentEq s n

/-- Parent-link consistency, strengthened with the containing node being a
folder (spec section 3: `parentId` is the "identifier of the containing
folder"). -/
def parentOK (s : Store) (n : FileNode) : Prop :=
  (n.parentId = none ∧ n.path = '/' :: n.name) ∨
    (∃ m ∈ s, n.parentId = some m.id ∧ m.type = FileType.folder ∧
      n.path = m.path ++ '/' :: n.name)

/-- The full data-model invariant used for preservation proofs: unique ids,
unique paths, and per node a non-empty slash-free name (spec section 3: the
name is the last path segment) with a consistent parent link. -/
def Inv (s : Store) : Prop :=
  (s.map (·.id)).Nodup ∧ (s.map (·.path)).Nodup ∧
    ∀ n ∈ s, n.name ≠ [] ∧ '/' ∉ n.name ∧ parentOK s n

instance (s : Store) (n : FileNode) : Decidable (parentEq s n) := by
  unfold parentEq; infer_instance

instance (s : Store) : Decidable (ClaimInv s) := by
  unfold ClaimInv; infer_instance

instance (s : Store) (n : FileNode) : Decidable (parentOK s n) := by
  unfold parentOK; infer_instance

instance (s : Store) : Decidable (Inv s) := by
  unfold Inv; infer_instance

instance : DecidableEq (Except FmError Store) := fun a b => by
  cases a <;> cases b <;>
    first
      | exact isFalse (by intro h; exact Except.noConfusion h)
      | · rename_i x y
          exact match decEq x y with
            | isTrue h => isTrue (by rw [h])
            | isFalse h => isFalse (by intro hh; exact h (by injection hh))

/-- One mutation-engine operation together with its ambient inputs (current
directory for create, clock readings for all three timestamped operations). -/
inductive FmOp where
  | create (dir name : Str) (t : FileType) (nowMs nowIso : Str)
  | rename (id newName nowIso : Str)
  | move (id dest nowIso : Str)
  | delete (ids : List Str)

/-- Run one operation against a store. -/
def applyOp (s : Store) : FmOp → Except FmError Store
  | .create dir name t nowMs nowIso => createNode s dir name t nowMs nowIso
  | .rename id newName nowIso => renameNode s id newName nowIso
  | .move id dest nowIso => moveNode s id dest nowIso
  | .delete ids => .ok (deleteNodes s ids)

/-- Well-formed use of an operation, the side conditions the amended claim C1
imposes on the arguments: created and renamed-to names contain no slash, the
current directory of a create is the root or an existing folder's path, the
allocated id of a create is fresh, and a move destination is the root or an
existing folder's path. -/
def opAllowed (s : Store) : FmOp → Prop
  | .create dir name _ nowMs _ =>
      '/' ∉ name ∧ (dir = slash ∨ ∃ m ∈ s, m.path = dir ∧ m.type = FileType.folder) ∧
        ∀ n ∈ s, n.id ≠ nowMs
  | .rename _ newName _ => '/' ∉ newName
  | .move _ dest _ => dest = slash ∨ ∃ m ∈ s, m.path = dest ∧ m.type = FileType.folder
  | .delete _ => True

instance (s : Store) (op : FmOp) : Decidable (opAllowed s op) := by
  cases op <;> · unfold opAllowed; infer_instance

/-- Run a sequence of operations, requiring each step to be well formed
(`opAllowed`) and successful; `none` when some step is ill-formed or fails. -/
def applyOps (s : Store) : List FmOp → Option Store
  | [] => some s
  | op :: ops =>
    if opAllowed s op then
      match applyOp s op with
      | .ok s' => applyOps s' ops
      | .error _ => none
    else none

/-- A separator-terminated prefix of a path of the form `p ++ '/' :: name`
with a slash-free last segment either reaches into `p` or is exactly `p`. -/
theorem sep_prefix_cases {name : Str} (hname : '/' ∉ name) :
    ∀ q p : Str, q ++ ['/'] <+: p ++ '/' :: name → q ++ ['/'] <+: p ∨ q = p := by
  intro q p
  induction p generalizing q with
  | nil =>
    intro h
    cases q with
    | nil => exact Or.inr rfl
    | cons c q' =>
      rw [List.cons_append, List.nil_append, List.cons_prefix_cons] at h
      exact absurd (h.2.subset (by simp)) hname
  | cons c p' ih =>
    intro h
    cases q with
    | nil =>
      rw [List.nil_append, List.cons_append, List.cons_prefix_cons] at h
      obtain ⟨rfl, -⟩ := h
      exact Or.inl (List.cons_prefix_cons.mpr ⟨rfl, List.nil_prefix⟩)
    | cons d q' =>
      rw [List.cons_append, List.cons_append, List.cons_prefix_cons] at h
      obtain ⟨rfl, h2⟩ := h
      rcases ih q' h2 with h3 | rfl
      · refine Or.inl ?_
        rw [List.cons_append]
        exact List.cons_prefix_cons.mpr ⟨rfl, h3⟩
      · exact Or.inr rfl

/-- A separator-terminated prefix of a single-segment path `'/' :: name` forces
the empty prefix. -/
theorem sep_prefix_root {name : Str} (hname : '/' ∉ name) :
    ∀ q : Str, q ++ ['/'] <+: '/' :: name → q = [] := by
  intro q h
  cases q with
  | nil => rfl
  | cons c q' =>
    rw [List.cons_append, List.cons_prefix_cons] at h
    exact absurd (h.2.subset (by simp)) hname

/-- A slash-free string has no last slash. -/
theorem lastSlashIdx_of_no_slash {b : Str} (h : '/' ∉ b) : lastSlashIdx b = none := by
  induction b with
  | nil => rfl
  | cons c cs ih =>
    simp only [List.mem_cons, not_or] at h
    have hc : ¬ c = '/' := fun hc => h.1 hc.symm
    simp [lastSlashIdx, ih h.2, hc]

/-- With a slash-free tail, the last slash of `a ++ '/' :: b` sits at index
`a.length`. -/
theorem lastSlashIdx_append {b : Str} (h : '/' ∉ b) :
    ∀ a : Str, lastSlashIdx (a ++ '/' :: b) = some a.length := by
  intro a
  induction a with
  | nil => simp [lastSlashIdx, lastSlashIdx_of_no_slash h]
  | cons c a' ih => simp [lastSlashIdx, ih]

/-- The source's parent-path computation recovers the parent component of a
joined path when the segment is slash-free. -/
theorem parentPathOf_append {b : Str} (h : '/' ∉ b) (a : Str) :
    parentPathOf (a ++ '/' :: b) = if a = [] then slash else a := by
  unfold parentPathOf
  rw [lastSlashIdx_append h a]
  simp [List.take_left]

/-- `findById` returns a member carrying the requested id. -/
theorem findById_eq_some {s : Store} {i : Str} {n : FileNode}
    (h : findById s i = some n) : n ∈ s ∧ n.id = i := by
  induction s with
  | nil => exact absurd h (by simp [findById])
  | cons m s' ih =>
    by_cases hm : m.id = i
    · rw [findById, if_pos hm] at h
      obtain rfl := Option.some.inj h
      exact ⟨List.mem_cons_self m s', hm⟩
    · rw [findById, if_neg hm] at h
      obtain ⟨h1, h2⟩ := ih h
      exact ⟨List.mem_cons_of_mem m h1, h2⟩

/-- `findById` misses exactly when no member carries the id. -/
theorem findById_eq_none {s : Store} {i : Str} :
    findById s i = none ↔ ∀ n ∈ s, n.id ≠ i := by
  induction s with
  | nil => simp [findById]
  | cons m s' ih =>
    by_cases hm : m.id = i
    · simp [findById, if_pos hm, hm]
    · simp only [findById, if_neg hm, ih, List.mem_cons]
      constructor
      · rintro h n (rfl | hn)
        · exact hm
        · exact h n hn
      · intro h n hn
        exact h n (Or.inr hn)

/-- With pairwise-distinct ids, `findById` at a member's id returns exactly
that member. -/
theorem findById_of_mem {s : Store} (hids : (s.map (·.id)).Nodup)
    {n : FileNode} (hn : n ∈ s) : findById s n.id = some n := by
  induction s with
  | nil => cases hn
  | cons m s' ih =>
    rw [List.map_cons, List.nodup_cons] at hids
    rcases List.mem_cons.mp hn with rfl | hn'
    · rw [findById, if_pos rfl]
    · have hne : m.id ≠ n.id := by
        intro he
        exact hids.1 (he ▸ List.mem_map_of_mem (·.id) hn')
      rw [findById, if_neg hne]
      exact ih hids.2 hn'

/-- `findFirstByPath` returns a member carrying the requested path. -/
theorem findFirstByPath_eq_some {s : Store} {p : Str} {n : FileNode}
    (h : findFirstByPath s p = some n) : n ∈ s ∧ n.path = p := by
  induction s with
  | nil => exact absurd h (by simp [findFirstByPath])
  | cons m s' ih =>
    by_cases hm : m.path = p
    · rw [findFirstByPath, if_pos hm] at h
      obtain rfl := Option.some.inj h
      exact ⟨List.mem_cons_self m s', hm⟩
    · rw [findFirstByPath, if_neg hm] at h
      obtain ⟨h1, h2⟩ := ih h
      exact ⟨List.mem_cons_of_mem m h1, h2⟩

/-- `findFirstByPath` misses exactly when no member carries the path. -/
theorem findFirstByPath_eq_none {s : Store} {p : Str} :
    findFirstByPath s p = none ↔ ∀ n ∈ s, n.path ≠ p := by
  induction s with
  | nil => simp [findFirstByPath]
  | cons m s' ih =>
    by_cases hm : m.path = p
    · simp [findFirstByPath, if_pos hm, hm]
    · simp only [findFirstByPath, if_neg hm, ih, List.mem_cons]
      constructor
      · rintro h n (rfl | hn)
        · exact hm
        · exact h n hn
      · intro h n hn
        exact h n (Or.inr hn)

/-- With pairwise-distinct paths, `findFirstByPath` at a member's path returns
exactly that member. -/
theorem findFirstByPath_of_mem {s : Store} (hps : (s.map (·.path)).Nodup)
    {n : FileNode} (hn : n ∈ s) : findFirstByPath s n.path = some n := by
  induction s with
  | nil => cases hn
  | cons m s' ih =>
    rw [List.map_cons, List.nodup_cons] at hps
    rcases List.mem_cons.mp hn with rfl | hn'
    · rw [findFirstByPath, if_pos rfl]
    · have hne : m.path ≠ n.path := by
        intro he
        exact hps.1 (he ▸ List.mem_map_of_mem (·.path) hn')
      rw [findFirstByPath, if_neg hne]
      exact ih hps.2 hn'

/-- `Map.set` with an id absent from the store appends the new entry. -/
theorem mapSet_of_fresh {s : Store} {m : FileNode}
    (h : ∀ n ∈ s, n.id ≠ m.id) : mapSet s m = s ++ [m] := by
  induction s with
  | nil => rfl
  | cons n s' ih =>
    rw [mapSet, if_neg (h n (List.mem_cons_self n s'))]
    rw [ih fun x hx => h x (List.mem_cons_of_mem n hx), List.cons_append]

/-- Two members of a path-unique store with equal paths coincide. -/
theorem eq_of_path_eq {s : Store} (hps : (s.map (·.path)).Nodup) {a b : FileNode}
    (ha : a ∈ s) (hb : b ∈ s) (h : a.path = b.path) : a = b :=
  List.inj_on_of_nodup_map hps ha hb h

/-- Two members of an id-unique store with equal ids coincide. -/
theorem eq_of_id_eq {s : Store} (hids : (s.map (·.id)).Nodup) {a b : FileNode}
    (ha : a ∈ s) (hb : b ∈ s) (h : a.id = b.id) : a = b :=
  List.inj_on_of_nodup_map hids ha hb h

/-- Under the invariant every path is non-empty. -/
theorem path_ne_nil {s : Store} (hInv : Inv s) {n : FileNode} (hn : n ∈ s) :
    n.path ≠ [] := by
  obtain ⟨-, -, hpOK⟩ := hInv.2.2 n hn
  rcases hpOK with ⟨-, hpath⟩ | ⟨m, -, -, -, hpath⟩
  · simp [hpath]
  · simp [hpath]

/-- Under the invariant no member sits at the virtual root path `'/'`. -/
theorem path_ne_slash {s : Store} (hInv : Inv s) {n : FileNode} (hn : n ∈ s) :
    n.path ≠ slash := by
  obtain ⟨hname, -, hpOK⟩ := hInv.2.2 n hn
  rcases hpOK with ⟨-, hpath⟩ | ⟨m, hm, -, -, hpath⟩
  · rw [hpath]
    intro h
    exact hname (by injection h)
  · rw [hpath]
    intro h
    have hle := congrArg List.length h
    simp [slash] at hle
    have hm0 : m.path.length = 0 := by omega
    exact absurd (List.eq_nil_of_length_eq_zero hm0) (path_ne_nil hInv hm)

/-- A joined path is never the root path when the segment is non-empty. -/
theorem joinPath_ne_slash {dir name : Str} (hname : name ≠ []) :
    joinPath dir name ≠ slash := by
  unfold joinPath
  split
  · intro h
    exact hname (by injection h)
  · intro h
    have hle := congrArg List.length h
    simp [slash] at hle
    have hn0 : name.length = 0 := by omega
    exact hname (List.eq_nil_of_length_eq_zero hn0)

/-- If no member sits at path `q`, no member's path extends `q` past a
separator: paths always have their full ancestor chain present (spec
invariant 2, read transitively). -/
theorem no_orphan_ext {s : Store} (hInv : Inv s) {q : Str} (hq : q ≠ [])
    (hfree : ∀ n ∈ s, n.path ≠ q) : ∀ n ∈ s, ¬ (q ++ ['/'] <+: n.path) := by
  have main : ∀ k, ∀ n ∈ s, n.path.length ≤ k → ¬ (q ++ ['/'] <+: n.path) := by
    intro k
    induction k with
    | zero =>
      intro n hn hlen hpre
      have h1 := hpre.length_le
      simp at h1
      omega
    | succ k ih =>
      intro n hn hlen hpre
      obtain ⟨-, hslash, hpOK⟩ := hInv.2.2 n hn
      rcases hpOK with ⟨-, hpath⟩ | ⟨m, hm, -, -, hpath⟩
      · rw [hpath] at hpre
        exact hq (sep_prefix_root hslash q hpre)
      · rw [hpath] at hpre
        rcases sep_prefix_cases hslash q m.path hpre with h2 | rfl
        · have hmlen : m.path.length ≤ k := by
            have := congrArg List.length hpath
            simp at this
            omega
          exact ih m hm hmlen h2
        · exact hfree m hm rfl
  intro n hn
  exact main n.path.length n hn le_rfl

/-- Under the invariant a non-folder member has no descendants by the
separator-prefix test: only folders contain nodes. -/
theorem no_desc_of_not_folder {s : Store} (hInv : Inv s) {n0 : FileNode}
    (h0 : n0 ∈ s) (hf : n0.type ≠ FileType.folder) :
    ∀ u ∈ s, ¬ (n0.path ++ ['/'] <+: u.path) := by
  have main : ∀ k, ∀ u ∈ s, u.path.length ≤ k → ¬ (n0.path ++ ['/'] <+: u.path) := by
    intro k
    induction k with
    | zero =>
      intro u hu hlen hpre
      have h1 := hpre.length_le
      simp at h1
      omega
    | succ k ih =>
      intro u hu hlen hpre
      obtain ⟨-, hslash, hpOK⟩ := hInv.2.2 u hu
      rcases hpOK with ⟨-, hpath⟩ | ⟨m, hm, -, hmf, hpath⟩
      · rw [hpath] at hpre
        exact path_ne_nil hInv h0 (sep_prefix_root hslash n0.path hpre)
      · rw [hpath] at hpre
        rcases sep_prefix_cases hslash n0.path m.path hpre with h2 | hqe
        · have hmlen : m.path.length ≤ k := by
            have := congrArg List.length hpath
            simp at this
            omega
          exact ih m hm hmlen h2
        · have : n0 = m := eq_of_path_eq hInv.2.1 h0 hm hqe
          exact hf (this ▸ hmf)
  intro u hu
  exact main u.path.length u hu le_rfl

/-- `findNodeByPath` returns a member at the requested (non-root) path. -/
theorem findNodeByPath_eq_some {s : Store} {p : Str} {n : FileNode}
    (h : findNodeByPath s p = some n) : n ∈ s ∧ n.path = p ∧ p ≠ slash := by
  unfold findNodeByPath at h
  by_cases hp : p = slash
  · rw [if_pos hp] at h
    cases h
  · rw [if_neg hp] at h
    obtain ⟨h1, h2⟩ := findFirstByPath_eq_some h
    exact ⟨h1, h2, hp⟩

/-- `findNodeByPath` at a non-root path misses exactly when no member carries
the path. -/
theorem findNodeByPath_eq_none {s : Store} {p : Str} (hp : p ≠ slash) :
    findNodeByPath s p = none ↔ ∀ n ∈ s, n.path ≠ p := by
  unfold findNodeByPath
  rw [if_neg hp]
  exact findFirstByPath_eq_none

/-- With pairwise-distinct paths, `findNodeByPath` at a member's (non-root)
path returns exactly that member. -/
theorem findNodeByPath_of_mem {s : Store} (hps : (s.map (·.path)).Nodup)
    {n : FileNode} (hn : n ∈ s) (hnp : n.path ≠ slash) :
    findNodeByPath s n.path = some n := by
  unfold findNodeByPath
  rw [if_neg hnp]
  exact findFirstByPath_of_mem hps hn

/-- Proof-side description of the node update performed inside the `produce`
block: replace the entry carrying id `i` by `g`, leave the rest alone. -/
def updTo (i : Str) (g : FileNode) (f : FileNode) : FileNode :=
  if f.id = i then g else f

theorem updTo_id {i : Str} {g : FileNode} (hgid : g.id = i) (f : FileNode) :
    (updTo i g f).id = f.id := by
  unfold updTo
  split
  · rename_i h
    rw [hgid, h]
  · rfl

theorem cascadeRewrite_id (o np : Str) (f : FileNode) :
    (cascadeRewrite o np f).id = f.id := by
  unfold cascadeRewrite
  split <;> rfl

theorem cascadeRewrite_name (o np : Str) (f : FileNode) :
    (cascadeRewrite o np f).name = f.name := by
  unfold cascadeRewrite
  split <;> rfl

theorem cascadeRewrite_type (o np : Str) (f : FileNode) :
    (cascadeRewrite o np f).type = f.type := by
  unfold cascadeRewrite
  split <;> rfl

theorem cascadeRewrite_parentId (o np : Str) (f : FileNode) :
    (cascadeRewrite o np f).parentId = f.parentId := by
  unfold cascadeRewrite
  split <;> rfl

theorem cascadeRewrite_path_pos {o : Str} {f : FileNode} (np : Str)
    (h : o ++ ['/'] <+: f.path) :
    (cascadeRewrite o np f).path = np ++ f.path.drop o.length := by
  unfold cascadeRewrite
  rw [if_pos h]

theorem cascadeRewrite_path_neg {o : Str} {f : FileNode} (np : Str)
    (h : ¬ (o ++ ['/'] <+: f.path)) : cascadeRewrite o np f = f := by
  unfold cascadeRewrite
  rw [if_neg h]

/-- A separator-extension prefix is exactly an append of `'/'` and a tail. -/
theorem sep_ext_decomp {old p : Str} (h : old ++ ['/'] <+: p) :
    ∃ t, p = old ++ '/' :: t := by
  obtain ⟨t, ht⟩ := h
  exact ⟨t, by rw [← ht]; simp⟩

theorem sep_ext_of_decomp {old p t : Str} (h : p = old ++ '/' :: t) :
    old ++ ['/'] <+: p := by
  exact ⟨t, by rw [h]; simp⟩

/-- The parent of a subtree member is the subtree root or lies in the
subtree itself. -/
theorem parent_in_subtree {s : Store} (hInv : Inv s) {n0 f m : FileNode}
    (h0 : n0 ∈ s) (hm : m ∈ s) (hslash : '/' ∉ f.name)
    (hfp : f.path = m.path ++ '/' :: f.name)
    (hpre : n0.path ++ ['/'] <+: f.path) :
    (n0.path ++ ['/'] <+: m.path) ∨ m = n0 := by
  rw [hfp] at hpre
  rcases sep_prefix_cases hslash n0.path m.path hpre with h2 | he
  · exact Or.inl h2
  · exact Or.inr ((eq_of_path_eq hInv.2.1 hm h0 he.symm).symm ▸ rfl)

/-- A path never extends itself past a separator. -/
theorem not_self_sep_ext (p : Str) : ¬ (p ++ ['/'] <+: p) := by
  intro h
  have := h.length_le
  simp at this

/-- Core invariant-preservation step shared by rename and move: replacing the
node `n0` by an updated node `g` (same id and kind, well-formed name, fresh
target path, parent witness outside the moved subtree) and then rewriting the
`n0.path`-prefixed descendants to the new path keeps the invariant. -/
theorem inv_update_cascade {s : Store} (hInv : Inv s) {n0 g : FileNode}
    (h0 : n0 ∈ s) (hgid : g.id = n0.id) (hgtype : g.type = n0.type)
    (hgname : g.name ≠ []) (hgslash : '/' ∉ g.name)
    (hparent : (g.parentId = none ∧ g.path = '/' :: g.name) ∨
      (∃ m ∈ s, g.parentId = some m.id ∧ m.type = FileType.folder ∧
        g.path = m.path ++ '/' :: g.name ∧ m ≠ n0 ∧
        ¬ (n0.path ++ ['/'] <+: m.path)))
    (hfresh : ∀ f ∈ s, f.path = g.path → f = n0)
    (hnoself : ¬ (n0.path ++ ['/'] <+: g.path)) :
    Inv ((s.map (updTo n0.id g)).map (cascadeRewrite n0.path g.path)) := by
  obtain ⟨hids, hps, hnodes⟩ := hInv
  have hInv' : Inv s := ⟨hids, hps, hnodes⟩
  have hsnodup : s.Nodup := hids.of_map
  rw [List.map_map]
  set ψ : FileNode → FileNode :=
    cascadeRewrite n0.path g.path ∘ updTo n0.id g with hψdef
  have hψid : ∀ f, (ψ f).id = f.id := by
    intro f
    rw [hψdef]
    simp only [Function.comp_apply, cascadeRewrite_id]
    exact updTo_id hgid f
  have hψ_n0 : ψ n0 = g := by
    rw [hψdef]
    simp only [Function.comp_apply]
    unfold updTo
    rw [if_pos rfl]
    exact cascadeRewrite_path_neg g.path hnoself
  have hψ_ne : ∀ f ∈ s, f ≠ n0 → ψ f = cascadeRewrite n0.path g.path f := by
    intro f hf hne
    rw [hψdef]
    simp only [Function.comp_apply]
    unfold updTo
    rw [if_neg fun he => hne (eq_of_id_eq hids hf h0 he)]
  have hψ_sub : ∀ f ∈ s, f ≠ n0 → ∀ t, f.path = n0.path ++ '/' :: t →
      ψ f = { f with path := g.path ++ '/' :: t } := by
    intro f hf hne t ht
    rw [hψ_ne f hf hne]
    unfold cascadeRewrite
    rw [if_pos (sep_ext_of_decomp ht), ht, List.drop_left]
  have hψ_out : ∀ f ∈ s, f ≠ n0 → ¬ (n0.path ++ ['/'] <+: f.path) → ψ f = f := by
    intro f hf hne hpre
    rw [hψ_ne f hf hne]
    exact cascadeRewrite_path_neg g.path hpre
  have hnp_ne_nil : g.path ≠ [] := by
    rcases hparent with ⟨-, hpath⟩ | ⟨m, -, -, -, hpath, -, -⟩
    · simp [hpath]
    · simp [hpath]
  have hfree_of_ne : n0.path ≠ g.path → ∀ f ∈ s, f.path ≠ g.path := by
    intro hne f hf he
    have h2 := hfresh f hf he
    rw [h2] at he
    exact hne he
  have hno_sub_of_out : ∀ f ∈ s, f ≠ n0 → ¬ (n0.path ++ ['/'] <+: f.path) →
      ∀ t, (ψ f).path ≠ g.path ++ '/' :: t := by
    intro f hf hne hout t he
    rw [hψ_out f hf hne hout] at he
    by_cases hon : n0.path = g.path
    · rw [← hon] at he
      exact hout (sep_ext_of_decomp he)
    · exact no_orphan_ext hInv' hnp_ne_nil (hfree_of_ne hon) f hf
        (sep_ext_of_decomp he)
  unfold Inv
  refine ⟨?_, ?_, ?_⟩
  · have h2 : List.map ((·.id) ∘ ψ) s = List.map (·.id) s :=
      List.map_congr_left fun f _ => hψid f
    rw [List.map_map, h2]
    exact hids
  · rw [List.map_map, List.nodup_map_iff_inj_on hsnodup]
    intro x hx y hy hxy
    simp only [Function.comp_apply] at hxy
    by_cases hxn : x = n0
    · by_cases hyn : y = n0
      · rw [hxn, hyn]
      · exfalso
        subst hxn
        rw [hψ_n0] at hxy
        by_cases hys : x.path ++ ['/'] <+: y.path
        · obtain ⟨ty, hty⟩ := sep_ext_decomp hys
          rw [hψ_sub y hy hyn ty hty] at hxy
          have hxy' : g.path = g.path ++ '/' :: ty := hxy
          have := congrArg List.length hxy'
          simp at this
        · rw [hψ_out y hy hyn hys] at hxy
          exact hyn (hfresh y hy hxy.symm)
    · by_cases hyn : y = n0
      · exfalso
        subst hyn
        rw [hψ_n0] at hxy
        by_cases hxs : y.path ++ ['/'] <+: x.path
        · obtain ⟨tx, htx⟩ := sep_ext_decomp hxs
          rw [hψ_sub x hx hxn tx htx] at hxy
          have hxy' : g.path ++ '/' :: tx = g.path := hxy
          have := congrArg List.length hxy'
          simp at this
        · rw [hψ_out x hx hxn hxs] at hxy
          exact hxn (hfresh x hx hxy)
      · by_cases hxs : n0.path ++ ['/'] <+: x.path
        · obtain ⟨tx, htx⟩ := sep_ext_decomp hxs
          by_cases hys : n0.path ++ ['/'] <+: y.path
          · obtain ⟨ty, hty⟩ := sep_ext_decomp hys
            rw [hψ_sub x hx hxn tx htx, hψ_sub y hy hyn ty hty] at hxy
            have hxy' : g.path ++ '/' :: tx = g.path ++ '/' :: ty := hxy
            have h2 := List.append_cancel_left hxy'
            apply eq_of_path_eq hps hx hy
            rw [htx, hty, h2]
          · exfalso
            rw [hψ_sub x hx hxn tx htx] at hxy
            have hxy' : g.path ++ '/' :: tx = (ψ y).path := hxy
            exact hno_sub_of_out y hy hyn hys tx hxy'.symm
        · by_cases hys : n0.path ++ ['/'] <+: y.path
          · exfalso
            obtain ⟨ty, hty⟩ := sep_ext_decomp hys
            rw [hψ_sub y hy hyn ty hty] at hxy
            have hxy' : (ψ x).path = g.path ++ '/' :: ty := hxy
            exact hno_sub_of_out x hx hxn hxs ty hxy'
          · rw [hψ_out x hx hxn hxs, hψ_out y hy hyn hys] at hxy
            exact eq_of_path_eq hps hx hy hxy
  · intro x hx
    obtain ⟨f, hf, rfl⟩ := List.mem_map.mp hx
    obtain ⟨hfname, hfslash, hfpOK⟩ := hnodes f hf
    by_cases hfn : f = n0
    · subst hfn
      rw [hψ_n0]
      refine ⟨hgname, hgslash, ?_⟩
      unfold parentOK
      rcases hparent with ⟨hpid, hpath⟩ | ⟨m, hm, hpid, hmf, hpath, hmne, hmout⟩
      · exact Or.inl ⟨hpid, hpath⟩
      · refine Or.inr ⟨ψ m, List.mem_map_of_mem ψ hm, ?_, ?_, ?_⟩
        · rw [hψ_out m hm hmne hmout]
          exact hpid
        · rw [hψ_out m hm hmne hmout]
          exact hmf
        · rw [hψ_out m hm hmne hmout]
          exact hpath
    · by_cases hfs : n0.path ++ ['/'] <+: f.path
      · obtain ⟨t, ht⟩ := sep_ext_decomp hfs
        have hx' := hψ_sub f hf hfn t ht
        have hxname : (ψ f).name = f.name := by rw [hx']
        have hxpid : (ψ f).parentId = f.parentId := by rw [hx']
        have hxpath : (ψ f).path = g.path ++ '/' :: t := by rw [hx']
        refine ⟨by rw [hxname]; exact hfname, by rw [hxname]; exact hfslash, ?_⟩
        unfold parentOK
        rcases hfpOK with ⟨hpid, hpath⟩ | ⟨m, hm, hpid, hmf, hpath⟩
        · exfalso
          rw [hpath] at hfs
          exact path_ne_nil hInv' h0 (sep_prefix_root hfslash n0.path hfs)
        · rcases parent_in_subtree hInv' h0 hm hfslash hpath hfs with hms | hmn0
          · obtain ⟨tm, htm⟩ := sep_ext_decomp hms
            have hmne : m ≠ n0 := by
              intro he
              rw [he] at hms
              exact not_self_sep_ext n0.path hms
            have hteq : '/' :: t = '/' :: (tm ++ '/' :: f.name) := by
              have h2 : n0.path ++ '/' :: t =
                  n0.path ++ '/' :: (tm ++ '/' :: f.name) := by
                rw [← ht, hpath, htm]
                simp
              exact List.append_cancel_left h2
            have hteq' : t = tm ++ '/' :: f.name := by
              injection hteq
            refine Or.inr ⟨ψ m, List.mem_map_of_mem ψ hm, ?_, ?_, ?_⟩
            · rw [hxpid, hψid m]
              exact hpid
            · rw [hψ_sub m hm hmne tm htm]
              exact hmf
            · rw [hxpath, hxname, hψ_sub m hm hmne tm htm, hteq']
              show g.path ++ '/' :: (tm ++ '/' :: f.name) =
                (g.path ++ '/' :: tm) ++ '/' :: f.name
              simp
          · refine Or.inr ⟨g, ?_, ?_, ?_, ?_⟩
            · rw [← hψ_n0]
              exact List.mem_map_of_mem ψ h0
            · rw [hxpid, hpid, hmn0, ← hgid]
            · rw [hgtype, ← hmn0]
              exact hmf
            · have hteq : t = f.name := by
                have h2 : n0.path ++ '/' :: t = n0.path ++ '/' :: f.name := by
                  rw [← ht, hpath, hmn0]
                have h3 := List.append_cancel_left h2
                injection h3
              rw [hxpath, hxname, hteq]
      · have hx' := hψ_out f hf hfn hfs
        rw [hx']
        refine ⟨hfname, hfslash, ?_⟩
        unfold parentOK
        rcases hfpOK with ⟨hpid, hpath⟩ | ⟨m, hm, hpid, hmf, hpath⟩
        · exact Or.inl ⟨hpid, hpath⟩
        · have hmne : m ≠ n0 := by
            intro he
            apply hfs
            rw [hpath, he]
            exact sep_ext_of_decomp rfl
          have hmout : ¬ (n0.path ++ ['/'] <+: m.path) := by
            intro hms
            obtain ⟨tm, htm⟩ := sep_ext_decomp hms
            apply hfs
            rw [hpath, htm]
            exact sep_ext_of_decomp (t := tm ++ '/' :: f.name) (by simp)
          refine Or.inr ⟨ψ m, List.mem_map_of_mem ψ hm, ?_, ?_, ?_⟩
          · rw [hψ_out m hm hmne hmout]
            exact hpid
          · rw [hψ_out m hm hmne hmout]
            exact hmf
          · rw [hψ_out m hm hmne hmout]
            exact hpath

/-- The parent condition only looks for a witness, so it survives growing the
store. -/
theorem parentOK_mono {s s' : Store} (hsub : ∀ x ∈ s, x ∈ s') {n : FileNode}
    (h : parentOK s n) : parentOK s' n := by
  rcases h with ⟨h1, h2⟩ | ⟨m, hm, h1, h2, h3⟩
  · exact Or.inl ⟨h1, h2⟩
  · exact Or.inr ⟨m, hsub m hm, h1, h2, h3⟩

/-- A successful, well-formed create preserves the invariant. -/
theorem createNode_ok_inv {s s' : Store} {dir name : Str} {t : FileType}
    {nowMs nowIso : Str} (hInv : Inv s) (hslash : '/' ∉ name)
    (hdir : dir = slash ∨ ∃ m ∈ s, m.path = dir ∧ m.type = FileType.folder)
    (hfreshId : ∀ n ∈ s, n.id ≠ nowMs)
    (hok : createNode s dir name t nowMs nowIso = .ok s') : Inv s' := by
  unfold createNode at hok
  by_cases hname : name = []
  · rw [if_pos hname] at hok
    cases hok
  rw [if_neg hname] at hok
  by_cases hcol : (findNodeByPath s (joinPath dir name)).isSome
  · rw [if_pos hcol] at hok
    cases hok
  rw [if_neg hcol] at hok
  obtain rfl := Except.ok.inj hok
  have hpfree : ∀ f ∈ s, f.path ≠ joinPath dir name := by
    have h2 : findNodeByPath s (joinPath dir name) = none :=
      Option.not_isSome_iff_eq_none.mp hcol
    exact (findNodeByPath_eq_none (joinPath_ne_slash hname)).mp h2
  set newNode : FileNode :=
    { id := nowMs, name := name, type := t, path := joinPath dir name,
      parentId := (findNodeByPath s dir).map (·.id), modifiedAt := nowIso,
      size := 0, content := if t = FileType.text then some [] else none,
      url := none } with hnew
  have happ : mapSet s newNode = s ++ [newNode] :=
    mapSet_of_fresh fun n hn => hfreshId n hn
  rw [happ]
  obtain ⟨hids, hps, hnodes⟩ := hInv
  refine ⟨?_, ?_, ?_⟩
  · rw [List.map_append, List.nodup_append]
    refine ⟨hids, List.nodup_singleton _, ?_⟩
    intro x hx hx'
    simp only [List.map_cons, List.map_nil, List.mem_singleton] at hx'
    obtain ⟨f, hf, hfx⟩ := List.mem_map.mp hx
    exact hfreshId f hf (by rw [hfx, hx'])
  · rw [List.map_append, List.nodup_append]
    refine ⟨hps, List.nodup_singleton _, ?_⟩
    intro x hx hx'
    simp only [List.map_cons, List.map_nil, List.mem_singleton] at hx'
    obtain ⟨f, hf, hfx⟩ := List.mem_map.mp hx
    exact hpfree f hf (by rw [hfx, hx'])
  · intro n hn
    rcases List.mem_append.mp hn with hn' | hn'
    · obtain ⟨h1, h2, h3⟩ := hnodes n hn'
      exact ⟨h1, h2, parentOK_mono (fun x hx => List.mem_append_left _ hx) h3⟩
    · obtain rfl := List.mem_singleton.mp hn'
      refine ⟨hname, hslash, ?_⟩
      rcases hdir with rfl | ⟨m, hm, hmp, hmf⟩
      · refine Or.inl ⟨?_, ?_⟩
        · show (findNodeByPath s slash).map (·.id) = none
          unfold findNodeByPath
          rw [if_pos rfl]
          rfl
        · show joinPath slash name = '/' :: name
          unfold joinPath
          rw [if_pos rfl]
      · have hmslash : m.path ≠ slash := path_ne_slash ⟨hids, hps, hnodes⟩ hm
        have hfind : findNodeByPath s dir = some m := by
          rw [← hmp]
          exact findNodeByPath_of_mem hps hm hmslash
        refine Or.inr ⟨m, List.mem_append_left _ hm, ?_, hmf, ?_⟩
        · show (findNodeByPath s dir).map (·.id) = some m.id
          rw [hfind]
          rfl
        · show joinPath dir name = m.path ++ '/' :: name
          unfold joinPath
          rw [if_neg (by rw [← hmp]; exact hmslash), hmp]

/-- Bridge between the boolean deletion-closure test and its logical
description. -/
theorem inDeleteSet_iff {s : Store} {ids : List Str} {f : FileNode} :
    inDeleteSet s ids f = true ↔
      f.id ∈ ids ∨ ∃ i ∈ ids, ∃ n, findById s i = some n ∧
        n.type = FileType.folder ∧ n.path ++ ['/'] <+: f.path := by
  unfold inDeleteSet
  rw [Bool.or_eq_true, List.any_eq_true]
  constructor
  · rintro (h | ⟨i, hi, h⟩)
    · exact Or.inl (List.elem_iff.mp h)
    · rcases hfind : findById s i with - | n
      · rw [hfind] at h
        cases h
      · rw [hfind] at h
        rw [Bool.and_eq_true, beq_iff_eq, List.isPrefixOf_iff_prefix] at h
        exact Or.inr ⟨i, hi, n, hfind, h.1, h.2⟩
  · rintro (h | ⟨i, hi, n, hfind, hfold, hpre⟩)
    · exact Or.inl (List.elem_iff.mpr h)
    · refine Or.inr ⟨i, hi, ?_⟩
      rw [hfind, Bool.and_eq_true, beq_iff_eq, List.isPrefixOf_iff_prefix]
      exact ⟨hfold, hpre⟩

/-- Batch delete preserves the invariant. -/
theorem deleteNodes_inv {s : Store} (hInv : Inv s) (ids : List Str) :
    Inv (deleteNodes s ids) := by
  obtain ⟨hids, hps, hnodes⟩ := hInv
  have hInv' : Inv s := ⟨hids, hps, hnodes⟩
  unfold deleteNodes
  have hsub : ∀ x ∈ s.filter (fun f => ! inDeleteSet s ids f), x ∈ s := by
    intro x hx
    exact (List.mem_filter.mp hx).1
  refine ⟨?_, ?_, ?_⟩
  · exact hids.sublist ((List.filter_sublist s).map (·.id))
  · exact hps.sublist ((List.filter_sublist s).map (·.path))
  · intro n hn
    obtain ⟨hn', hkeep⟩ := List.mem_filter.mp hn
    obtain ⟨h1, h2, h3⟩ := hnodes n hn'
    refine ⟨h1, h2, ?_⟩
    rcases h3 with ⟨hp1, hp2⟩ | ⟨m, hm, hp1, hp2, hp3⟩
    · exact Or.inl ⟨hp1, hp2⟩
    · refine Or.inr ⟨m, ?_, hp1, hp2, hp3⟩
      rw [List.mem_filter]
      refine ⟨hm, ?_⟩
      rw [Bool.not_eq_true']
      rw [Bool.not_eq_true'] at hkeep
      by_contra hdel
      have hdel' := inDeleteSet_iff.mp (Bool.not_eq_false _ ▸ hdel)
      have hnpre : m.path ++ ['/'] <+: n.path :=
        sep_ext_of_decomp (t := n.name) hp3
      have : inDeleteSet s ids n = true := by
        rcases hdel' with h | ⟨i, hi, x, hfind, hfold, hpre⟩
        · refine inDeleteSet_iff.mpr (Or.inr ⟨m.id, h, m, ?_, hp2, hnpre⟩)
          exact findById_of_mem hids hm
        · refine inDeleteSet_iff.mpr (Or.inr ⟨i, hi, x, hfind, hfold, ?_⟩)
          have hmn : m.path <+: n.path :=
            (List.prefix_append m.path ['/']).trans hnpre
          exact hpre.trans hmn
      rw [hkeep] at this
      cases this

/-- A successful rename with a slash-free new name preserves the invariant. -/
theorem renameNode_ok_inv {s s' : Store} {id newName nowIso : Str}
    (hInv : Inv s) (hslash : '/' ∉ newName)
    (hok : renameNode s id newName nowIso = .ok s') : Inv s' := by
  unfold renameNode at hok
  by_cases hname : newName = []
  · rw [if_pos hname] at hok
    cases hok
  rw [if_neg hname] at hok
  cases hfind : findById s id with
  | none =>
    simp only [hfind] at hok
    obtain rfl := Except.ok.inj hok
    exact hInv
  | some n0 =>
  simp only [hfind] at hok
  by_cases hcol : ∃ f ∈ s,
      f.path = joinPath (parentPathOf n0.path) newName ∧ f.id ≠ id
  · rw [if_pos hcol] at hok
    cases hok
  rw [if_neg hcol] at hok
  obtain rfl := Except.ok.inj hok
  obtain ⟨h0, hid0⟩ := findById_eq_some hfind
  obtain ⟨hn0name, hn0slash, hn0pOK⟩ := hInv.2.2 n0 h0
  set newPath := joinPath (parentPathOf n0.path) newName with hnpdef
  set g : FileNode :=
    { n0 with name := newName, path := newPath, modifiedAt := nowIso } with hgdef
  have hmap : (s.map fun f =>
      if f.id = id then { f with name := newName, path := newPath, modifiedAt := nowIso }
      else f) = s.map (updTo n0.id g) := by
    apply List.map_congr_left
    intro f hf
    by_cases hfid : f.id = id
    · have hfeq : f = n0 := eq_of_id_eq hInv.1 hf h0 (by rw [hfid, hid0])
      rw [if_pos hfid]
      unfold updTo
      rw [if_pos (by rw [hfid, hid0]), hfeq]
    · rw [if_neg hfid]
      unfold updTo
      rw [if_neg (by rw [hid0]; exact hfid)]
  have hfresh : ∀ f ∈ s, f.path = g.path → f = n0 := by
    intro f hf hfp
    by_cases hfid : f.id = id
    · exact eq_of_id_eq hInv.1 hf h0 (by rw [hfid, hid0])
    · exact absurd ⟨f, hf, hfp, hfid⟩ hcol
  have hkey : (¬ (n0.path ++ ['/'] <+: g.path)) ∧
      ((g.parentId = none ∧ g.path = '/' :: g.name) ∨
        (∃ m ∈ s, g.parentId = some m.id ∧ m.type = FileType.folder ∧
          g.path = m.path ++ '/' :: g.name ∧ m ≠ n0 ∧
          ¬ (n0.path ++ ['/'] <+: m.path))) := by
    have hgp : g.path = newPath := rfl
    have hgn : g.name = newName := rfl
    have hgpid : g.parentId = n0.parentId := rfl
    rw [hgp, hgn, hgpid]
    rcases hn0pOK with ⟨hpid, hpath⟩ | ⟨m, hm, hpid, hmf, hpath⟩
    · have hpp : parentPathOf n0.path = slash := by
        rw [hpath]
        have h2 := parentPathOf_append hn0slash []
        simpa using h2
      have hnp : newPath = '/' :: newName := by
        show joinPath (parentPathOf n0.path) newName = '/' :: newName
        rw [hpp]
        unfold joinPath
        rw [if_pos rfl]
      constructor
      · intro hpre
        rw [hpath, hnp] at hpre
        rw [List.cons_append, List.cons_prefix_cons] at hpre
        exact hslash (hpre.2.subset (by simp))
      · exact Or.inl ⟨hpid, hnp⟩
    · have hmnil : m.path ≠ [] := path_ne_nil hInv hm
      have hmslash : m.path ≠ slash := path_ne_slash hInv hm
      have hpp : parentPathOf n0.path = m.path := by
        rw [hpath, parentPathOf_append hn0slash m.path, if_neg hmnil]
      have hnp : newPath = m.path ++ '/' :: newName := by
        show joinPath (parentPathOf n0.path) newName = m.path ++ '/' :: newName
        rw [hpp]
        unfold joinPath
        rw [if_neg hmslash]
      have hlen := congrArg List.length hpath
      simp at hlen
      have hmne : m ≠ n0 := by
        intro he
        rw [he] at hlen
        omega
      have hmout : ¬ (n0.path ++ ['/'] <+: m.path) := by
        intro hpre
        have := hpre.length_le
        simp at this
        omega
      constructor
      · intro hpre
        rw [hpath, hnp] at hpre
        have h2 : (m.path ++ ['/']) ++ (n0.name ++ ['/']) <+:
            (m.path ++ ['/']) ++ newName := by
          simpa using hpre
        have h3 := (List.prefix_append_right_inj (m.path ++ ['/'])).mp h2
        exact hslash (h3.subset (by simp))
      · exact Or.inr ⟨m, hm, hpid, hmf, hnp, hmne, hmout⟩
  rw [hmap]
  split
  · rename_i hfold
    exact inv_update_cascade (g := g) hInv h0 rfl rfl hname hslash hkey.2 hfresh hkey.1
  · rename_i hfold
    have hcasc : (s.map (updTo n0.id g)).map (cascadeRewrite n0.path g.path) =
        s.map (updTo n0.id g) := by
      rw [List.map_map]
      apply List.map_congr_left
      intro f hf
      simp only [Function.comp_apply]
      by_cases hfn : f = n0
      · subst hfn
        unfold updTo
        rw [if_pos rfl]
        exact cascadeRewrite_path_neg g.path hkey.1
      · unfold updTo
        rw [if_neg fun he => hfn (eq_of_id_eq hInv.1 hf h0 he)]
        exact cascadeRewrite_path_neg g.path
          (no_desc_of_not_folder hInv h0 hfold f hf)
    rw [← hcasc]
    exact inv_update_cascade (g := g) hInv h0 rfl rfl hname hslash hkey.2 hfresh hkey.1

/-- A successful move to the root or to an existing folder's path preserves
the invariant. -/
theorem moveNode_ok_inv {s s' : Store} {id dest nowIso : Str}
    (hInv : Inv s)
    (hdest : dest = slash ∨ ∃ m ∈ s, m.path = dest ∧ m.type = FileType.folder)
    (hok : moveNode s id dest nowIso = .ok s') : Inv s' := by
  unfold moveNode at hok
  cases hfind : findById s id with
  | none =>
    simp only [hfind] at hok
    obtain rfl := Except.ok.inj hok
    exact hInv
  | some n0 =>
  simp only [hfind] at hok
  by_cases hnf : dest ≠ slash ∧ findNodeByPath s dest = none
  · rw [if_pos hnf] at hok
    cases hok
  rw [if_neg hnf] at hok
  by_cases hcyc : n0.type = FileType.folder ∧ n0.path <+: dest
  · rw [if_pos hcyc] at hok
    cases hok
  rw [if_neg hcyc] at hok
  by_cases hcol : (findNodeByPath s (joinPath dest n0.name)).isSome
  · rw [if_pos hcol] at hok
    cases hok
  rw [if_neg hcol] at hok
  obtain rfl := Except.ok.inj hok
  obtain ⟨h0, hid0⟩ := findById_eq_some hfind
  obtain ⟨hn0name, hn0slash, hn0pOK⟩ := hInv.2.2 n0 h0
  set newPath := joinPath dest n0.name with hnpdef
  set g : FileNode :=
    { n0 with path := newPath,
              parentId := (findNodeByPath s dest).map (·.id),
              modifiedAt := nowIso } with hgdef
  have hfree : ∀ f ∈ s, f.path ≠ newPath :=
    (findNodeByPath_eq_none (joinPath_ne_slash hn0name)).mp
      (Option.not_isSome_iff_eq_none.mp hcol)
  have hfresh : ∀ f ∈ s, f.path = g.path → f = n0 := by
    intro f hf hfp
    exact absurd hfp (hfree f hf)
  have hmap : (s.map fun f =>
      if f.id = id then
        { f with path := newPath,
                 parentId := (findNodeByPath s dest).map (·.id),
                 modifiedAt := nowIso }
      else f) = s.map (updTo n0.id g) := by
    apply List.map_congr_left
    intro f hf
    by_cases hfid : f.id = id
    · have hfeq : f = n0 := eq_of_id_eq hInv.1 hf h0 (by rw [hfid, hid0])
      rw [if_pos hfid]
      unfold updTo
      rw [if_pos (by rw [hfid, hid0]), hfeq]
    · rw [if_neg hfid]
      unfold updTo
      rw [if_neg (by rw [hid0]; exact hfid)]
  have hkey : (¬ (n0.path ++ ['/'] <+: g.path)) ∧
      ((g.parentId = none ∧ g.path = '/' :: g.name) ∨
        (∃ m ∈ s, g.parentId = some m.id ∧ m.type = FileType.folder ∧
          g.path = m.path ++ '/' :: g.name ∧ m ≠ n0 ∧
          ¬ (n0.path ++ ['/'] <+: m.path))) := by
    have hgp : g.path = newPath := rfl
    have hgn : g.name = n0.name := rfl
    have hgpid : g.parentId = (findNodeByPath s dest).map (·.id) := rfl
    rw [hgp, hgn, hgpid]
    rcases hdest with rfl | ⟨m, hm, hmp, hmf⟩
    · have hfindroot : findNodeByPath s slash = none := by
        unfold findNodeByPath
        rw [if_pos rfl]
      have hnp : newPath = '/' :: n0.name := by
        show joinPath slash n0.name = '/' :: n0.name
        unfold joinPath
        rw [if_pos rfl]
      constructor
      · intro hpre
        rw [hnp] at hpre
        exact path_ne_nil hInv h0 (sep_prefix_root hn0slash n0.path hpre)
      · exact Or.inl ⟨by rw [hfindroot]; rfl, hnp⟩
    · have hmslash : dest ≠ slash := by
        rw [← hmp]
        exact path_ne_slash hInv hm
      have hfindm : findNodeByPath s dest = some m := by
        rw [← hmp]
        exact findNodeByPath_of_mem hInv.2.1 hm (hmp ▸ hmslash)
      have hnp : newPath = m.path ++ '/' :: n0.name := by
        show joinPath dest n0.name = m.path ++ '/' :: n0.name
        unfold joinPath
        rw [if_neg hmslash, hmp]
      have hmne : m ≠ n0 := by
        intro he
        by_cases hfold : n0.type = FileType.folder
        · apply hcyc
          refine ⟨hfold, ?_⟩
          rw [← hmp, he]
        · rw [he] at hmf
          exact hfold hmf
      have hmout : ¬ (n0.path ++ ['/'] <+: m.path) := by
        intro hpre
        by_cases hfold : n0.type = FileType.folder
        · apply hcyc
          refine ⟨hfold, ?_⟩
          rw [← hmp]
          exact (List.prefix_append n0.path ['/']).trans hpre
        · exact no_desc_of_not_folder hInv h0 hfold m hm hpre
      constructor
      · intro hpre
        rw [hnp] at hpre
        rcases sep_prefix_cases hn0slash n0.path m.path hpre with h2 | he
        · exact hmout h2
        · exact hmne (eq_of_path_eq hInv.2.1 h0 hm he).symm
      · refine Or.inr ⟨m, hm, ?_, hmf, hnp, hmne, hmout⟩
        rw [hfindm]
        rfl
  rw [hmap]
  split
  · rename_i hfold
    exact inv_update_cascade (g := g) hInv h0 rfl rfl hn0name hn0slash
      hkey.2 hfresh hkey.1
  · rename_i hfold
    have hcasc : (s.map (updTo n0.id g)).map (cascadeRewrite n0.path g.path) =
        s.map (updTo n0.id g) := by
      rw [List.map_map]
      apply List.map_congr_left
      intro f hf
      simp only [Function.comp_apply]
      by_cases hfn : f = n0
      · subst hfn
        unfold updTo
        rw [if_pos rfl]
        exact cascadeRewrite_path_neg g.path hkey.1
      · unfold updTo
        rw [if_neg fun he => hfn (eq_of_id_eq hInv.1 hf h0 he)]
        exact cascadeRewrite_path_neg g.path
          (no_desc_of_not_folder hInv h0 hfold f hf)
    rw [← hcasc]
    exact inv_update_cascade (g := g) hInv h0 rfl rfl hn0name hn0slash
      hkey.2 hfresh hkey.1

/-- One allowed, successful operation preserves the invariant. -/
theorem applyOp_ok_inv {s s' : Store} {op : FmOp} (hInv : Inv s)
    (hallow : opAllowed s op) (hok : applyOp s op = .ok s') : Inv s' := by
  cases op with
  | create dir name t nowMs nowIso =>
    unfold opAllowed at hallow
    obtain ⟨h1, h2, h3⟩ := hallow
    exact createNode_ok_inv hInv h1 h2 h3 hok
  | rename id newName nowIso =>
    unfold opAllowed at hallow
    exact renameNode_ok_inv hInv hallow hok
  | move id dest nowIso =>
    unfold opAllowed at hallow
    exact moveNode_ok_inv hInv hallow hok
  | delete ids =>
    obtain rfl := Except.ok.inj hok
    exact deleteNodes_inv hInv ids

/-- A whole allowed, successful operation sequence preserves the invariant;
since every intermediate store is the run of a prefix, the invariant holds
after every step. -/
theorem applyOps_inv {s s' : Store} {ops : List FmOp} (hInv : Inv s)
    (h : applyOps s ops = some s') : Inv s' := by
  induction ops generalizing s with
  | nil =>
    unfold applyOps at h
    obtain rfl := Option.some.inj h
    exact hInv
  | cons op rest ih =>
    unfold applyOps at h
    by_cases ha : opAllowed s op
    · rw [if_pos ha] at h
      cases hap : applyOp s op with
      | ok s1 =>
        rw [hap] at h
        exact ih (applyOp_ok_inv hInv ha hap) h
      | error e =>
        rw [hap] at h
        cases h
    · rw [if_neg ha] at h
      cases h

/-- The full invariant subsumes the pair stated in claim C1. -/
theorem claimInv_of_inv {s : Store} (h : Inv s) : ClaimInv s := by
  refine ⟨h.2.1, ?_⟩
  intro n hn
  rcases (h.2.2 n hn).2.2 with ⟨h1, h2⟩ | ⟨m, hm, h1, -, h3⟩
  · exact Or.inl ⟨h1, h2⟩
  · exact Or.inr ⟨m, hm, h1, h3⟩

/-- Store after creating folder `a` at the root (fixture for C1). -/
def c1s1 : Store :=
  [{ id := "1".data, name := "a".data, type := FileType.folder, path := "/a".data,
     parentId := none, modifiedAt := "T1".data, size := 0, content := none,
     url := none }]

/-- Store after additionally creating a text node whose name `a/x` contains a
slash (the source never validates names against `'/'`), placed at the root
(fixture for C1). -/
def c1s2 : Store :=
  c1s1 ++
    [{ id := "2".data, name := "a/x".data, type := FileType.text,
       path := "/a/x".data, parentId := none, modifiedAt := "T2".data,
       size := 0, content := some [], url := none }]

/-- Store after renaming folder `a` to `b`: the cascade drags `/a/x` to
`/b/x`, but that node's `parentId` is `none` and its name is still `a/x`, so
the parent-path equation of claim C1 is broken (fixture for C1). -/
def c1s3 : Store :=
  [{ id := "1".data, name := "b".data, type := FileType.folder, path := "/b".data,
     parentId := none, modifiedAt := "T3".data, size := 0, content := none,
     url := none },
   { id := "2".data, name := "a/x".data, type := FileType.text,
     path := "/b/x".data, parentId := none, modifiedAt := "T2".data,
     size := 0, content := some [], url := none }]

/-- C1, counterexample: starting from the empty store (which satisfies all
invariants), the successful sequence `createNode("a", folder)`,
`createNode("a/x", text)` (both at the root), `renameNode(id "1", "b")` ends
in a store violating the claimed invariant: node `2` has `parentId = none`
but `path = "/b/x" ≠ "/" + name`.  The operations also stay inside the
claimed signature — each one succeeds — so the claim as stated is false. -/
theorem claimC1_counterexample :
    Inv ([] : Store) ∧
    createNode [] slash ("a".data) FileType.folder ("1".data) ("T1".data)
      = .ok c1s1 ∧
    createNode c1s1 slash ("a/x".data) FileType.text ("2".data) ("T2".data)
      = .ok c1s2 ∧
    renameNode c1s2 ("1".data) ("b".data) ("T3".data) = .ok c1s3 ∧
    ¬ ClaimInv c1s3 := by
  refine ⟨by decide, by decide, by decide, by decide, by decide⟩

/-- C1 (amended): for every sequence of successful createNode, renameNode,
moveNode and deleteNodes operations whose arguments are well formed — created
and renamed-to names contain no slash, createNode runs with the current
directory `/` or an existing folder's path and a fresh identifier, and a move
destination is `/` or an existing folder's path — starting from a store
satisfying the data-model invariants, the store after every step satisfies
path uniqueness and the transitive parent-path equation (every intermediate
store is `applyOps` of a prefix of the sequence). -/
theorem claimC1_invariants (s s' : Store) (ops : List FmOp) (hInv : Inv s)
    (h : applyOps s ops = some s') : ClaimInv s' ∧ Inv s' := by
  have h2 := applyOps_inv hInv h
  exact ⟨claimInv_of_inv h2, h2⟩

/-- Result store of the C1 witness run: one folder created at the root. -/
def c1w : Store :=
  [{ id := "9".data, name := "docs".data, type := FileType.folder,
     path := "/docs".data, parentId := none, modifiedAt := "T".data,
     size := 0, content := none, url := none }]

/-- C1 witness: the amended theorem applied to a concrete successful create
run from the empty store. -/
theorem claimC1_witness : ClaimInv c1w ∧ Inv c1w :=
  claimC1_invariants [] c1w
    [FmOp.create slash ("docs".data) FileType.folder ("9".data) ("T".data)]
    (by decide) (by decide)

/-- `draft.get` through an id-preserving per-entry transformation. -/
theorem findById_map {s : Store} {ψ : FileNode → FileNode}
    (hid : ∀ x, (ψ x).id = x.id) (i : Str) :
    findById (s.map ψ) i = (findById s i).map ψ := by
  induction s with
  | nil => rfl
  | cons n s' ih =>
    by_cases hn : n.id = i
    · rw [List.map_cons, findById, findById, if_pos hn, if_pos (by rw [hid n]; exact hn)]
      rfl
    · rw [List.map_cons, findById, findById, if_neg hn,
        if_neg (by rw [hid n]; exact hn), ih]

/-- C4: when renameNode succeeds on a folder, every other node whose path
starts with the folder's old path plus a separator — at every depth — is
rewritten to the computed new path (`joinPath (parentPathOf oldPath) newName`)
followed by the unchanged suffix of its old path, and every other node whose
path does not extend the old path keeps its path unchanged. -/
theorem claimC4_rename_cascade (s s' : Store) (id newName nowIso : Str)
    (n0 : FileNode) (hids : (s.map (·.id)).Nodup)
    (hfind : findById s id = some n0)
    (hfold : n0.type = FileType.folder)
    (hok : renameNode s id newName nowIso = .ok s') :
    ∀ f ∈ s, f.id ≠ id →
      ∃ f', findById s' f.id = some f' ∧
        (n0.path ++ ['/'] <+: f.path →
          f'.path = joinPath (parentPathOf n0.path) newName ++
            f.path.drop n0.path.length) ∧
        (¬ (n0.path ++ ['/'] <+: f.path) → f'.path = f.path) := by
  unfold renameNode at hok
  by_cases hname : newName = []
  · rw [if_pos hname] at hok
    cases hok
  rw [if_neg hname] at hok
  simp only [hfind] at hok
  by_cases hcol : ∃ f ∈ s,
      f.path = joinPath (parentPathOf n0.path) newName ∧ f.id ≠ id
  · rw [if_pos hcol] at hok
    cases hok
  rw [if_neg hcol, if_pos hfold] at hok
  obtain rfl := Except.ok.inj hok
  intro f hf hfid
  set np := joinPath (parentPathOf n0.path) newName with hnpdef
  set lam : FileNode → FileNode := fun f =>
    if f.id = id then { f with name := newName, path := np, modifiedAt := nowIso }
    else f with hlamdef
  have hlam_id : ∀ x, (lam x).id = x.id := by
    intro x
    simp only [hlamdef]
    split <;> rfl
  have hfindf : findById ((s.map lam).map (cascadeRewrite n0.path np)) f.id =
      some (cascadeRewrite n0.path np (lam f)) := by
    rw [findById_map (fun x => cascadeRewrite_id n0.path np x) f.id,
      findById_map hlam_id f.id, findById_of_mem hids hf]
    rfl
  have hlamf : lam f = f := by
    rw [hlamdef]
    exact if_neg hfid
  refine ⟨cascadeRewrite n0.path np (lam f), hfindf, ?_, ?_⟩
  · intro hpre
    rw [hlamf, cascadeRewrite_path_pos np hpre]
  · intro hpre
    rw [hlamf, cascadeRewrite_path_neg np hpre]

/-- Folder `/docs` (fixture for C4). -/
def c4Folder : FileNode :=
  { id := "d".data, name := "docs".data, type := FileType.folder,
    path := "/docs".data, parentId := none, modifiedAt := "T".data,
    size := 0, content := none, url := none }

/-- Subfolder `/docs/sub` (fixture for C4). -/
def c4Sub : FileNode :=
  { id := "s".data, name := "sub".data, type := FileType.folder,
    path := "/docs/sub".data, parentId := some ("d".data),
    modifiedAt := "T".data, size := 0, content := none, url := none }

/-- File `/docs/sub/f`, a depth-two descendant (fixture for C4). -/
def c4File : FileNode :=
  { id := "f".data, name := "f".data, type := FileType.text,
    path := "/docs/sub/f".data, parentId := some ("s".data),
    modifiedAt := "T".data, size := 0, content := some [], url := none }

/-- Three-level store before the C4 witness rename. -/
def c4Store : Store := [c4Folder, c4Sub, c4File]

/-- Store after renaming `/docs` to `reports`: both descendants are rewritten
at their depths (fixture for C4). -/
def c4Renamed : Store :=
  [{ id := "d".data, name := "reports".data, type := FileType.folder,
     path := "/reports".data, parentId := none, modifiedAt := "T2".data,
     size := 0, content := none, url := none },
   { id := "s".data, name := "sub".data, type := FileType.folder,
     path := "/reports/sub".data, parentId := some ("d".data),
     modifiedAt := "T".data, size := 0, content := none, url := none },
   { id := "f".data, name := "f".data, type := FileType.text,
     path := "/reports/sub/f".data, parentId := some ("s".data),
     modifiedAt := "T".data, size := 0, content := some [], url := none }]

/-- C4 witness: the cascade theorem applied to the depth-two descendant of a
concrete successful rename. -/
theorem claimC4_witness :
    ∃ f', findById c4Renamed c4File.id = some f' ∧
      (c4Folder.path ++ ['/'] <+: c4File.path →
        f'.path = joinPath (parentPathOf c4Folder.path) ("reports".data) ++
          c4File.path.drop c4Folder.path.length) ∧
      (¬ (c4Folder.path ++ ['/'] <+: c4File.path) → f'.path = c4File.path) :=
  claimC4_rename_cascade c4Store c4Renamed ("d".data) ("reports".data)
    ("T2".data) c4Folder (by decide) (by decide) (by decide) (by decide)
    c4File (by decide) (by decide)

/-- A lone file node at `/a` (fixture for C2). -/
def c2Node : FileNode :=
  { id := "a".data, name := "a".data, type := FileType.text, path := "/a".data,
    parentId := none, modifiedAt := "T".data, size := 0, content := some [],
    url := none }

/-- One-node store (fixture for C2). -/
def c2Store : Store := [c2Node]

/-- C2, counterexample: the id `zz` is absent from the store, yet neither
renameNode nor moveNode signals any error — both return the store unchanged
(`if (!node) return;` in the source), contradicting the claim that a
NotFoundError is signalled exactly when the referenced identifier is
absent. -/
theorem claimC2_counterexample :
    findById c2Store ("zz".data) = none ∧
    renameNode c2Store ("zz".data) ("n".data) ("T".data) = .ok c2Store ∧
    moveNode c2Store ("zz".data) slash ("T".data) = .ok c2Store := by
  refine ⟨by decide, by decide, by decide⟩

/-- C2 (amended): an absent id makes renameNode (given a non-empty name) and
moveNode silent no-ops returning the unchanged store; renameNode never
signals NotFoundError at all; and when the id is present, moveNode signals
NotFoundError exactly when the destination is not `/` and no node of any
kind occupies the destination path.  (An error result leaves the store
unchanged by the `produce` rollback.) -/
theorem claimC2_notfound (s : Store) (id newName dest nowIso : Str)
    (n : FileNode) :
    (newName ≠ [] → findById s id = none →
      renameNode s id newName nowIso = .ok s) ∧
    (findById s id = none → moveNode s id dest nowIso = .ok s) ∧
    (renameNode s id newName nowIso ≠ .error .notFound) ∧
    (findById s id = some n →
      (moveNode s id dest nowIso = .error .notFound ↔
        dest ≠ slash ∧ ∀ f ∈ s, f.path ≠ dest)) := by
  refine ⟨?_, ?_, ?_, ?_⟩
  · intro hname hfind
    unfold renameNode
    rw [if_neg hname]
    simp only [hfind]
  · intro hfind
    unfold moveNode
    simp only [hfind]
  · unfold renameNode
    by_cases hname : newName = []
    · rw [if_pos hname]
      intro h
      cases h
    rw [if_neg hname]
    cases hfind : findById s id with
    | none =>
      simp only [hfind]
      intro h
      cases h
    | some n0 =>
      simp only [hfind]
      by_cases hcol : ∃ f ∈ s,
          f.path = joinPath (parentPathOf n0.path) newName ∧ f.id ≠ id
      · rw [if_pos hcol]
        intro h
        cases h
      · rw [if_neg hcol]
        intro h
        cases h
  · intro hfind
    unfold moveNode
    simp only [hfind]
    by_cases hnf : dest ≠ slash ∧ findNodeByPath s dest = none
    · rw [if_pos hnf]
      constructor
      · intro _
        exact ⟨hnf.1, (findNodeByPath_eq_none hnf.1).mp hnf.2⟩
      · intro _
        rfl
    · rw [if_neg hnf]
      have hrhs : ¬ (dest ≠ slash ∧ ∀ f ∈ s, f.path ≠ dest) := by
        intro ⟨h1, h2⟩
        exact hnf ⟨h1, (findNodeByPath_eq_none h1).mpr h2⟩
      have hlhs : (if n.type = FileType.folder ∧ n.path <+: dest then
            (Except.error FmError.cyclicMove : Except FmError Store)
          else
            if (findNodeByPath s (joinPath dest n.name)).isSome then
              .error .collision
            else
              .ok (if n.type = FileType.folder then
                (s.map fun f =>
                  if f.id = id then
                    { f with path := joinPath dest n.name,
                             parentId := (findNodeByPath s dest).map (·.id),
                             modifiedAt := nowIso }
                  else f).map (cascadeRewrite n.path (joinPath dest n.name))
              else
                s.map fun f =>
                  if f.id = id then
                    { f with path := joinPath dest n.name,
                             parentId := (findNodeByPath s dest).map (·.id),
                             modifiedAt := nowIso }
                  else f)) ≠ .error .notFound := by
        by_cases hcyc : n.type = FileType.folder ∧ n.path <+: dest
        · rw [if_pos hcyc]
          intro h
          cases h
        rw [if_neg hcyc]
        by_cases hcol : (findNodeByPath s (joinPath dest n.name)).isSome
        · rw [if_pos hcol]
          intro h
          cases h
        · rw [if_neg hcol]
          intro h
          cases h
      exact iff_of_false hlhs hrhs

/-- C2 witness: a present node moved to an unresolvable destination triggers
the NotFoundError branch of the amended characterization. -/
theorem claimC2_witness :
    moveNode c2Store ("a".data) ("/nope".data) ("T".data) = .error .notFound :=
  ((claimC2_notfound c2Store ("a".data) ("n".data) ("/nope".data) ("T".data)
    c2Node).2.2.2 (by decide)).mpr ⟨by decide, by decide⟩

/-- Folder `/docs` (fixture for C3). -/
def c3Docs : FileNode :=
  { id := "a".data, name := "docs".data, type := FileType.folder,
    path := "/docs".data, parentId := none, modifiedAt := "T".data,
    size := 0, content := none, url := none }

/-- Sibling folder `/docs2` whose path extends `/docs` without a separator
(fixture for C3). -/
def c3Docs2 : FileNode :=
  { id := "b".data, name := "docs2".data, type := FileType.folder,
    path := "/docs2".data, parentId := none, modifiedAt := "T".data,
    size := 0, content := none, url := none }

/-- Two sibling folders (fixture for C3). -/
def c3Store : Store := [c3Docs, c3Docs2]

/-- C3, counterexample: moving `/docs` into the sibling `/docs2` is rejected
as cyclic by the source (`newParentPath.startsWith(node.path)` is a plain
prefix test), although `/docs2` is neither `/docs` itself nor inside
`/docs/`, so the claimed separator-matching characterization is false. -/
theorem claimC3_counterexample :
    moveNode c3Store ("a".data) ("/docs2".data) ("T".data)
      = .error .cyclicMove ∧
    ¬ ("/docs2".data = "/docs".data ∨
        ("/docs".data ++ ['/']) <+: "/docs2".data) := by
  refine ⟨by decide, by decide⟩

/-- C3 (amended): for a present id, moveNode fails with CyclicMoveError
exactly when the destination resolves (it is `/` or some node's path), the
moved node is a folder, and the destination path starts with the folder's
path as a plain string prefix — no separator required, so `/docs` to
`/docs2` is rejected. -/
theorem claimC3_cyclic (s : Store) (id dest nowIso : Str) (n : FileNode)
    (hfind : findById s id = some n) :
    moveNode s id dest nowIso = .error .cyclicMove ↔
      (dest = slash ∨ ∃ f ∈ s, f.path = dest) ∧
      n.type = FileType.folder ∧ n.path <+: dest := by
  unfold moveNode
  simp only [hfind]
  by_cases hnf : dest ≠ slash ∧ findNodeByPath s dest = none
  · rw [if_pos hnf]
    constructor
    · intro h
      cases h
    · rintro ⟨h1, -⟩
      exfalso
      rcases h1 with rfl | ⟨f, hf, hfp⟩
      · exact hnf.1 rfl
      · rw [findNodeByPath_eq_none hnf.1] at hnf
        exact hnf.2 f hf hfp
  · rw [if_neg hnf]
    have hres : dest = slash ∨ ∃ f ∈ s, f.path = dest := by
      by_cases hds : dest = slash
      · exact Or.inl hds
      · refine Or.inr ?_
        rcases hne : findNodeByPath s dest with - | f
        · exact absurd ⟨hds, hne⟩ hnf
        · obtain ⟨h1, h2, -⟩ := findNodeByPath_eq_some hne
          exact ⟨f, h1, h2⟩
    by_cases hcyc : n.type = FileType.folder ∧ n.path <+: dest
    · rw [if_pos hcyc]
      exact iff_of_true rfl ⟨hres, hcyc⟩
    · rw [if_neg hcyc]
      have hlhs : (if (findNodeByPath s (joinPath dest n.name)).isSome then
            (Except.error FmError.collision : Except FmError Store)
          else
            .ok (if n.type = FileType.folder then
              (s.map fun f =>
                if f.id = id then
                  { f with path := joinPath dest n.name,
                           parentId := (findNodeByPath s dest).map (·.id),
                           modifiedAt := nowIso }
                else f).map (cascadeRewrite n.path (joinPath dest n.name))
            else
              s.map fun f =>
                if f.id = id then
                  { f with path := joinPath dest n.name,
                           parentId := (findNodeByPath s dest).map (·.id),
                           modifiedAt := nowIso }
                else f)) ≠ .error .cyclicMove := by
        by_cases hcol : (findNodeByPath s (joinPath dest n.name)).isSome
        · rw [if_pos hcol]
          intro h
          cases h
        · rw [if_neg hcol]
          intro h
          cases h
      exact iff_of_false hlhs fun h => hcyc h.2

/-- C3 witness: the amended plain-prefix characterization applied to the
concrete sibling store. -/
theorem claimC3_witness :
    moveNode c3Store ("a".data) ("/docs2".data) ("T2".data)
      = .error .cyclicMove :=
  (claimC3_cyclic c3Store ("a".data) ("/docs2".data) ("T2".data) c3Docs
    (by decide)).mpr
    ⟨Or.inr ⟨c3Docs2, by decide, by decide⟩, by decide, by decide⟩

/-- Folder `/docs` (fixture for C10). -/
def c10Folder : FileNode :=
  { id := "p".data, name := "docs".data, type := FileType.folder,
    path := "/docs".data, parentId := none, modifiedAt := "T".data,
    size := 0, content := none, url := none }

/-- File `/docs/n` inside the folder (fixture for C10). -/
def c10Child : FileNode :=
  { id := "c".data, name := "n".data, type := FileType.text,
    path := "/docs/n".data, parentId := some ("p".data),
    modifiedAt := "T".data, size := 0, content := some [], url := none }

/-- Two-node store (fixture for C10). -/
def c10Store : Store := [c10Folder, c10Child]

/-- C10: moving any present node to its own current parent path always fails
with the collision error, because the occupied-path check runs while the node
still holds its old path and finds the node itself at the computed
destination path.  (The error leaves the store unchanged by the `produce`
rollback.) -/
theorem claimC10_move_to_parent (s : Store) (id nowIso : Str) (n : FileNode)
    (hInv : Inv s) (hfind : findById s id = some n) :
    moveNode s id (parentPathOf n.path) nowIso = .error .collision := by
  obtain ⟨hn, -⟩ := findById_eq_some hfind
  obtain ⟨hname, hslash, hpOK⟩ := hInv.2.2 n hn
  have hnslash : n.path ≠ slash := path_ne_slash hInv hn
  have hself : findNodeByPath s n.path = some n :=
    findNodeByPath_of_mem hInv.2.1 hn hnslash
  unfold moveNode
  simp only [hfind]
  rcases hpOK with ⟨-, hpath⟩ | ⟨m, hm, -, -, hpath⟩
  · have hpp : parentPathOf n.path = slash := by
      rw [hpath]
      have h2 := parentPathOf_append hslash []
      simpa using h2
    rw [hpp]
    rw [if_neg (by intro h; exact h.1 rfl)]
    have hjoin : joinPath slash n.name = n.path := by
      unfold joinPath
      rw [if_pos rfl, hpath]
    have hcyc : ¬ (n.type = FileType.folder ∧ n.path <+: slash) := by
      rintro ⟨-, h2⟩
      have h3 := h2.length_le
      rw [hpath] at h3
      simp [slash] at h3
      exact hname h3
    rw [if_neg hcyc, hjoin, if_pos (by rw [hself]; rfl)]
  · have hmnil : m.path ≠ [] := path_ne_nil hInv hm
    have hmslash : m.path ≠ slash := path_ne_slash hInv hm
    have hpp : parentPathOf n.path = m.path := by
      rw [hpath, parentPathOf_append hslash m.path, if_neg hmnil]
    rw [hpp]
    have hfm : findNodeByPath s m.path = some m :=
      findNodeByPath_of_mem hInv.2.1 hm hmslash
    rw [if_neg (by intro h; rw [hfm] at h; cases h.2)]
    have hlen := congrArg List.length hpath
    simp at hlen
    have hcyc : ¬ (n.type = FileType.folder ∧ n.path <+: m.path) := by
      rintro ⟨-, h2⟩
      have h3 := h2.length_le
      omega
    have hjoin : joinPath m.path n.name = n.path := by
      unfold joinPath
      rw [if_neg hmslash, hpath]
    rw [if_neg hcyc, hjoin, if_pos (by rw [hself]; rfl)]

/-- C10 witness: the concrete file `/docs/n` moved to its parent `/docs`
collides with itself. -/
theorem claimC10_witness :
    moveNode c10Store ("c".data) (parentPathOf ("/docs/n".data)) ("T2".data)
      = .error .collision :=
  claimC10_move_to_parent c10Store ("c".data) ("T2".data) c10Child
    (by decide) (by decide)

/-- With unique ids, the deletion closure is: listed ids plus, for each
listed folder present in the store, every node whose path extends that
folder's path past a separator. -/
theorem inDeleteSet_mem_iff {s : Store} (hids : (s.map (·.id)).Nodup)
    {ids : List Str} {f : FileNode} :
    inDeleteSet s ids f = true ↔
      f.id ∈ ids ∨ ∃ g ∈ s, g.id ∈ ids ∧ g.type = FileType.folder ∧
        g.path ++ ['/'] <+: f.path := by
  rw [inDeleteSet_iff]
  constructor
  · rintro (h | ⟨i, hi, n, hfind, hfold, hpre⟩)
    · exact Or.inl h
    · obtain ⟨hn, hnid⟩ := findById_eq_some hfind
      exact Or.inr ⟨n, hn, hnid ▸ hi, hfold, hpre⟩
  · rintro (h | ⟨g, hg, hgid, hgfold, hpre⟩)
    · exact Or.inl h
    · exact Or.inr ⟨g.id, hgid, g, findById_of_mem hids hg, hgfold, hpre⟩

/-- C6: deleteNodes is a total function (it always succeeds); with unique
ids, it removes exactly the listed nodes together with every node whose path
extends a listed folder's path past a separator, at every depth; listed ids
absent from the store are simply skipped; and deleting a single id twice
yields the same store as deleting it once. -/
theorem claimC6_delete (s : Store) (ids : List Str) (i : Str)
    (hids : (s.map (·.id)).Nodup) :
    (∀ f ∈ s, (f ∈ deleteNodes s ids ↔
      ¬ (f.id ∈ ids ∨ ∃ g ∈ s, g.id ∈ ids ∧ g.type = FileType.folder ∧
        g.path ++ ['/'] <+: f.path))) ∧
    deleteNodes (deleteNodes s [i]) [i] = deleteNodes s [i] := by
  constructor
  · intro f hf
    unfold deleteNodes
    rw [List.mem_filter]
    constructor
    · rintro ⟨-, hkeep⟩
      rw [Bool.not_eq_true'] at hkeep
      intro hdel
      rw [← inDeleteSet_mem_iff hids] at hdel
      rw [hkeep] at hdel
      cases hdel
    · intro hdel
      refine ⟨hf, ?_⟩
      rw [Bool.not_eq_true', ← Bool.not_eq_true]
      rw [inDeleteSet_mem_iff hids]
      exact hdel
  · have hgone : ∀ g ∈ deleteNodes s [i], g.id ≠ i := by
      intro g hg he
      unfold deleteNodes at hg
      obtain ⟨-, hkeep⟩ := List.mem_filter.mp hg
      rw [Bool.not_eq_true'] at hkeep
      have : inDeleteSet s [i] g = true :=
        inDeleteSet_iff.mpr (Or.inl (by rw [he]; exact List.mem_singleton_self i))
      rw [hkeep] at this
      cases this
    have hnone : findById (deleteNodes s [i]) i = none :=
      findById_eq_none.mpr hgone
    show (deleteNodes s [i]).filter _ = deleteNodes s [i]
    rw [List.filter_eq_self]
    intro f hf
    rw [Bool.not_eq_true']
    rw [Bool.eq_false_iff]
    intro hdel
    rcases inDeleteSet_iff.mp hdel with h | ⟨j, hj, n, hfind, -, -⟩
    · exact hgone f hf (List.mem_singleton.mp h)
    · obtain rfl := List.mem_singleton.mp hj
      rw [hnone] at hfind
      cases hfind

/-- Folder and child (fixture for C6). -/
def c6Folder : FileNode :=
  { id := "p".data, name := "dir".data, type := FileType.folder,
    path := "/dir".data, parentId := none, modifiedAt := "T".data,
    size := 0, content := none, url := none }

/-- Child file of the C6 folder. -/
def c6Child : FileNode :=
  { id := "c".data, name := "x".data, type := FileType.text,
    path := "/dir/x".data, parentId := some ("p".data),
    modifiedAt := "T".data, size := 0, content := some [], url := none }

/-- Two-node store (fixture for C6). -/
def c6Store : Store := [c6Folder, c6Child]

/-- C6 witness: the characterization and single-id idempotence instantiated
at a concrete folder-with-child store. -/
theorem claimC6_witness :
    (∀ f ∈ c6Store, (f ∈ deleteNodes c6Store [("p".data)] ↔
      ¬ (f.id ∈ [("p".data)] ∨ ∃ g ∈ c6Store, g.id ∈ [("p".data)] ∧
        g.type = FileType.folder ∧ g.path ++ ['/'] <+: f.path))) ∧
    deleteNodes (deleteNodes c6Store [("p".data)]) [("p".data)]
      = deleteNodes c6Store [("p".data)] :=
  claimC6_delete c6Store [("p".data)] ("p".data) (by decide)

/-- First path match when the path determines the node uniquely. -/
theorem findFirstByPath_unique {s : Store} {p : Str} {m : FileNode}
    (hm : m ∈ s) (hmp : m.path = p) (huniq : ∀ x ∈ s, x.path = p → x = m) :
    findFirstByPath s p = some m := by
  induction s with
  | nil => cases hm
  | cons a s' ih =>
    by_cases hap : a.path = p
    · rw [findFirstByPath, if_pos hap, huniq a (List.mem_cons_self a s') hap]
    · rw [findFirstByPath, if_neg hap]
      rcases List.mem_cons.mp hm with rfl | hm'
      · exact absurd hmp hap
      · exact ih hm' fun x hx => huniq x (List.mem_cons_of_mem a hx)

/-- Node that occupies the timestamp id before the C8 counterexample create. -/
def c8Old : FileNode :=
  { id := "100".data, name := "old".data, type := FileType.text,
    path := "/old".data, parentId := none, modifiedAt := "T1".data,
    size := 0, content := some [], url := none }

/-- One-node store (fixture for C8). -/
def c8Pre : Store := [c8Old]

/-- Store after the C8 counterexample create: the `Map.set` replaced the old
entry because the allocated id (the clock reading) already existed. -/
def c8Post : Store :=
  [{ id := "100".data, name := "new".data, type := FileType.text,
     path := "/new".data, parentId := none, modifiedAt := "T2".data,
     size := 0, content := some [], url := none }]

/-- C8, counterexample: when the allocated id (the millisecond clock reading)
equals an existing node's id, the otherwise-valid create succeeds but
replaces the existing node instead of inserting one more node: the store
keeps its length and the old node is gone, so "inserts exactly one new node"
is false as stated. -/
theorem claimC8_counterexample :
    c8Old ∈ c8Pre ∧
    createNode c8Pre slash ("new".data) FileType.text ("100".data) ("T2".data)
      = .ok c8Post ∧
    c8Old ∉ c8Post ∧ c8Post.length = c8Pre.length := by
  refine ⟨by decide, by decide, by decide, by decide⟩

/-- C8 (amended): in current directory `dir` (the root, or the path of the
unique node at `dir`), createNode fails with ValidationError when the name is
empty and with CollisionError when a node occupies the joined path, leaving
the store unchanged; otherwise, provided the allocated identifier is fresh,
it appends exactly one node with the joined path, `parentId` the id of the
directory node (or none at the root), size 0, `modifiedAt` the current ISO
time, and an empty `content` exactly for the text kind. -/
theorem claimC8_create (s : Store) (dir name : Str) (t : FileType)
    (nowMs nowIso : Str) (pid : Option Str)
    (hdir : (dir = slash ∧ pid = none) ∨
      (dir ≠ slash ∧ ∃ m ∈ s, m.path = dir ∧ pid = some m.id ∧
        ∀ x ∈ s, x.path = dir → x = m)) :
    (name = [] →
      createNode s dir name t nowMs nowIso = .error .validation) ∧
    (name ≠ [] → (∃ f ∈ s, f.path = joinPath dir name) →
      createNode s dir name t nowMs nowIso = .error .collision) ∧
    (name ≠ [] → (∀ f ∈ s, f.path ≠ joinPath dir name) →
      (∀ f ∈ s, f.id ≠ nowMs) →
      createNode s dir name t nowMs nowIso = .ok (s ++
        [{ id := nowMs, name := name, type := t, path := joinPath dir name,
           parentId := pid, modifiedAt := nowIso, size := 0,
           content := if t = FileType.text then some [] else none,
           url := none }])) := by
  refine ⟨?_, ?_, ?_⟩
  · intro hname
    unfold createNode
    rw [if_pos hname]
  · intro hname hex
    unfold createNode
    rw [if_neg hname]
    have hsome : (findNodeByPath s (joinPath dir name)).isSome := by
      rw [Option.isSome_iff_ne_none]
      intro hnone
      obtain ⟨f, hf, hfp⟩ := hex
      exact (findNodeByPath_eq_none (joinPath_ne_slash hname)).mp hnone f hf hfp
    rw [if_pos hsome]
  · intro hname hfree hfresh
    unfold createNode
    rw [if_neg hname]
    have hnone : findNodeByPath s (joinPath dir name) = none :=
      (findNodeByPath_eq_none (joinPath_ne_slash hname)).mpr hfree
    rw [if_neg (by rw [hnone]; intro h; cases h)]
    have hpn : (findNodeByPath s dir).map (·.id) = pid := by
      rcases hdir with ⟨rfl, rfl⟩ | ⟨hds, m, hm, hmp, rfl, huniq⟩
      · unfold findNodeByPath
        rw [if_pos rfl]
        rfl
      · unfold findNodeByPath
        rw [if_neg hds, findFirstByPath_unique hm hmp huniq]
        rfl
    simp only [hpn]
    rw [mapSet_of_fresh]
    exact hfresh

/-- Folder `/docs` (fixture for the C8 witness, the spec's section 8
scenario). -/
def c8Docs : FileNode :=
  { id := "d".data, name := "docs".data, type := FileType.folder,
    path := "/docs".data, parentId := none, modifiedAt := "T".data,
    size := 0, content := none, url := none }

/-- One-folder store (fixture for the C8 witness). -/
def c8Store : Store := [c8Docs]

/-- C8 witness: creating text node `notes` inside `/docs` appends a node with
path `/docs/notes`, `parentId` the folder's id, size 0 and empty content. -/
theorem claimC8_witness :
    createNode c8Store ("/docs".data) ("notes".data) FileType.text
      ("7".data) ("T2".data) = .ok (c8Store ++
        [{ id := "7".data, name := "notes".data, type := FileType.text,
           path := joinPath ("/docs".data) ("notes".data),
           parentId := some ("d".data), modifiedAt := "T2".data, size := 0,
           content := if FileType.text = FileType.text then some [] else none,
           url := none }]) :=
  (claimC8_create c8Store ("/docs".data) ("notes".data) FileType.text
    ("7".data) ("T2".data) (some ("d".data))
    (Or.inr ⟨by decide, c8Docs, by decide, by decide, by decide⟩)).2.2
    (by decide) (by decide) (by decide)

/-- Node created at millisecond 1700000000000 (fixture for C9). -/
def c9Old : FileNode :=
  { id := "1700000000000".data, name := "a".data, type := FileType.text,
    path := "/a".data, parentId := none, modifiedAt := "T1".data,
    size := 0, content := some [], url := none }

/-- One-node store (fixture for C9). -/
def c9Pre : Store := [c9Old]

/-- Store after a second create in the same millisecond: the old node has
been silently replaced (fixture for C9). -/
def c9Post : Store :=
  [{ id := "1700000000000".data, name := "b".data, type := FileType.text,
     path := "/b".data, parentId := none, modifiedAt := "T2".data,
     size := 0, content := some [], url := none }]

/-- C9, failing input evaluated: `createNode` allocates
`new Date().getTime().toString()` as the id, so a second create within the
same millisecond reuses the id of an existing node and `Map.set` silently
replaces that node — the allocated identifier is not distinct from existing
ids, and the earlier node is lost. -/
theorem claimC9_id_collision :
    c9Old ∈ c9Pre ∧
    createNode c9Pre slash ("b".data) FileType.text (c9Old.id) ("T2".data)
      = .ok c9Post ∧
    c9Old ∉ c9Post ∧ (∃ n ∈ c9Post, n.id = c9Old.id ∧ n ≠ c9Old) := by
  refine ⟨by decide, by decide, by decide, by decide⟩

theorem lexCompare_nil_le (c : Str) : lexCompare [] c ≤ 0 := by
  cases c <;> simp [lexCompare]
theorem lexCompare_neg : ∀ a b : Str, lexCompare a b = - lexCompare b a := by
  intro a
  induction a with
  | nil => intro b; cases b <;> simp [lexCompare]
  | cons x as ih =>
    intro b
    cases b with
    | nil => simp [lexCompare]
    | cons y bs =>
      simp only [lexCompare]
      rcases lt_trichotomy x y with h | rfl | h
      · simp [h, asymm h]
      · simp [lt_irrefl, ih bs]
      · simp [h, asymm h]

theorem lexCompare_trans :
    ∀ a b c : Str, lexCompare a b ≤ 0 → lexCompare b c ≤ 0 →
      lexCompare a c ≤ 0 := by
  intro a
  induction a with
  | nil => intro b c _ _; exact lexCompare_nil_le c
  | cons x as ih =>
    intro b c h1 h2
    cases b with
    | nil => simp [lexCompare] at h1
    | cons y bs =>
      cases c with
      | nil => simp [lexCompare] at h2
      | cons z cs =>
        simp only [lexCompare] at h1 h2 ⊢
        rcases lt_trichotomy x y with hxy | rfl | hxy
        · rcases lt_trichotomy y z with hyz | rfl | hyz
          · rw [if_pos (hxy.trans hyz)]
            omega
          · rw [if_pos hxy]
            omega
          · rw [if_neg (asymm hyz), if_pos hyz] at h2
            omega
        · rw [if_neg (lt_irrefl x), if_neg (lt_irrefl x)] at h1
          rcases lt_trichotomy x z with hxz | rfl | hxz
          · rw [if_pos hxz]
            omega
          · rw [if_neg (lt_irrefl x), if_neg (lt_irrefl x)] at h2 ⊢
            exact ih bs cs h1 h2
          · rw [if_neg (asymm hxz), if_pos hxz] at h2
            omega
        · rw [if_neg (asymm hxy), if_pos hxy] at h1
          omega

theorem lexCompare_eq_zero : ∀ a b : Str, lexCompare a b = 0 → a = b := by
  intro a
  induction a with
  | nil =>
    intro b h
    cases b with
    | nil => rfl
    | cons y bs => simp [lexCompare] at h
  | cons x as ih =>
    intro b h
    cases b with
    | nil => simp [lexCompare] at h
    | cons y bs =>
      simp only [lexCompare] at h
      rcases lt_trichotomy x y with hxy | rfl | hxy
      · rw [if_pos hxy] at h
        exact absurd h (by decide)
      · rw [if_neg (lt_irrefl x), if_neg (lt_irrefl x)] at h
        rw [ih bs h]
      · rw [if_neg (asymm hxy), if_pos hxy] at h
        exact absurd h (by decide)

theorem lexCompare_self (a : Str) : lexCompare a a = 0 := by
  have h := lexCompare_neg a a
  omega

theorem keyCompare_neg (k : SortKey) (a b : FileNode) :
    keyCompare k a b = - keyCompare k b a := by
  cases k with
  | name => exact lexCompare_neg a.name b.name
  | modifiedAt => exact lexCompare_neg a.modifiedAt b.modifiedAt
  | size =>
    simp only [keyCompare]
    omega

theorem keyCompare_trans_le {k : SortKey} {a b c : FileNode}
    (h1 : keyCompare k a b ≤ 0) (h2 : keyCompare k b c ≤ 0) :
    keyCompare k a c ≤ 0 := by
  cases k with
  | name => exact lexCompare_trans a.name b.name c.name h1 h2
  | modifiedAt => exact lexCompare_trans _ _ _ h1 h2
  | size =>
    simp only [keyCompare] at h1 h2 ⊢
    omega

theorem keyCompare_zero_trans {k : SortKey} {a b c : FileNode}
    (h1 : keyCompare k a b = 0) (h2 : keyCompare k b c = 0) :
    keyCompare k a c = 0 := by
  cases k with
  | name =>
    have e1 := lexCompare_eq_zero _ _ h1
    show lexCompare a.name c.name = 0
    rw [e1]
    rw [show b.name = c.name from lexCompare_eq_zero _ _ h2]
    exact lexCompare_self c.name
  | modifiedAt =>
    have e1 := lexCompare_eq_zero _ _ h1
    show lexCompare a.modifiedAt c.modifiedAt = 0
    rw [e1]
    rw [show b.modifiedAt = c.modifiedAt from lexCompare_eq_zero _ _ h2]
    exact lexCompare_self c.modifiedAt
  | size =>
    simp only [keyCompare] at h1 h2 ⊢
    omega

theorem nodeCompare_neg (cfg : SortConfig) (a b : FileNode) :
    nodeCompare cfg a b = - nodeCompare cfg b a := by
  have hk := keyCompare_neg cfg.key a b
  unfold nodeCompare
  split_ifs <;> first | rfl | omega | tauto

theorem nodeCompare_total (cfg : SortConfig) (a b : FileNode) :
    nodeCompare cfg a b ≤ 0 ∨ nodeCompare cfg b a ≤ 0 := by
  have h := nodeCompare_neg cfg a b
  omega

theorem nodeCompare_trans_le {cfg : SortConfig} {a b c : FileNode}
    (h1 : nodeCompare cfg a b ≤ 0) (h2 : nodeCompare cfg b c ≤ 0) :
    nodeCompare cfg a c ≤ 0 := by
  have hab := keyCompare_neg cfg.key a b
  have hbc := keyCompare_neg cfg.key b c
  have hac := keyCompare_neg cfg.key a c
  unfold nodeCompare at h1 h2 ⊢
  split_ifs at h1 h2 ⊢ <;>
    first
      | omega
      | tauto
      | (have h3 := keyCompare_trans_le (k := cfg.key) (a := a) (b := b) (c := c)
          (by omega) (by omega)
         omega)
      | (have h3 := keyCompare_trans_le (k := cfg.key) (a := c) (b := b) (c := a)
          (by omega) (by omega)
         omega)

theorem nodeCompare_zero_trans {cfg : SortConfig} {a b c : FileNode}
    (h1 : nodeCompare cfg a b = 0) (h2 : nodeCompare cfg b c = 0) :
    nodeCompare cfg a c = 0 := by
  have hab := keyCompare_neg cfg.key a b
  have hbc := keyCompare_neg cfg.key b c
  have hac := keyCompare_neg cfg.key a c
  unfold nodeCompare at h1 h2 ⊢
  split_ifs at h1 h2 ⊢ <;>
    first
      | omega
      | tauto
      | (have h3 := keyCompare_zero_trans (k := cfg.key) (a := a) (b := b) (c := c)
          (by omega) (by omega)
         omega)

theorem insertSorted_perm (cmp : FileNode → FileNode → Int) (x : FileNode) :
    ∀ l : List FileNode, List.Perm (insertSorted cmp x l) (x :: l) := by
  intro l
  induction l with
  | nil => rfl
  | cons y ys ih =>
    unfold insertSorted
    split
    · rfl
    · exact (List.Perm.cons y ih).trans (List.Perm.swap x y ys)

theorem sortByCmp_perm (cmp : FileNode → FileNode → Int) :
    ∀ l : List FileNode, List.Perm (sortByCmp cmp l) l := by
  intro l
  induction l with
  | nil => rfl
  | cons x xs ih =>
    unfold sortByCmp
    exact (insertSorted_perm cmp x (sortByCmp cmp xs)).trans (List.Perm.cons x ih)

theorem insertSorted_pairwise {cmp : FileNode → FileNode → Int}
    (hneg : ∀ a b, cmp a b = - cmp b a)
    (htrans : ∀ a b c, cmp a b ≤ 0 → cmp b c ≤ 0 → cmp a c ≤ 0)
    (x : FileNode) :
    ∀ l : List FileNode, l.Pairwise (fun a b => cmp a b ≤ 0) →
      (insertSorted cmp x l).Pairwise (fun a b => cmp a b ≤ 0) := by
  intro l
  induction l with
  | nil =>
    intro h2
    unfold insertSorted
    exact List.pairwise_singleton _ x
  | cons y ys ih =>
    intro h
    rw [List.pairwise_cons] at h
    unfold insertSorted
    split
    · rename_i hxy
      rw [List.pairwise_cons]
      refine ⟨?_, List.pairwise_cons.mpr h⟩
      intro z hz
      rcases List.mem_cons.mp hz with rfl | hz'
      · exact hxy
      · exact htrans x y z hxy (h.1 z hz')
    · rename_i hxy
      rw [List.pairwise_cons]
      constructor
      · intro z hz
        have hperm := insertSorted_perm cmp x ys
        have hz' := hperm.mem_iff.mp hz
        rcases List.mem_cons.mp hz' with rfl | hz''
        · have := hneg z y
          omega
        · exact h.1 z hz''
      · exact ih h.2

theorem sortByCmp_pairwise {cmp : FileNode → FileNode → Int}
    (hneg : ∀ a b, cmp a b = - cmp b a)
    (htrans : ∀ a b c, cmp a b ≤ 0 → cmp b c ≤ 0 → cmp a c ≤ 0)
    (l : List FileNode) :
    (sortByCmp cmp l).Pairwise (fun a b => cmp a b ≤ 0) := by
  induction l with
  | nil => exact List.Pairwise.nil
  | cons x xs ih =>
    unfold sortByCmp
    exact insertSorted_pairwise hneg htrans x (sortByCmp cmp xs) ih

theorem filter_insertSorted {cmp : FileNode → FileNode → Int}
    (hneg : ∀ a b, cmp a b = - cmp b a)
    (hzt : ∀ a b c, cmp a b = 0 → cmp b c = 0 → cmp a c = 0)
    (x z : FileNode) :
    ∀ l : List FileNode,
      (insertSorted cmp x l).filter (fun y => cmp y z == 0) =
        if cmp x z == 0 then x :: l.filter (fun y => cmp y z == 0)
        else l.filter (fun y => cmp y z == 0) := by
  intro l
  induction l with
  | nil =>
    unfold insertSorted
    rw [List.filter_cons]
  | cons y ys ih =>
    unfold insertSorted
    split
    · rename_i hxy
      rw [List.filter_cons]
    · rename_i hxy
      rw [List.filter_cons]
      by_cases hpx : (cmp x z == 0) = true
      · have hpy : ¬ ((cmp y z == 0) = true) := by
          intro hpy
          rw [beq_iff_eq] at hpx hpy
          have h2 : cmp z y = 0 := by
            have := hneg y z
            omega
          have h3 := hzt x z y hpx h2
          omega
        rw [if_neg hpy, ih, if_pos hpx, if_pos hpx, List.filter_cons,
          if_neg hpy]
      · rw [ih, if_neg hpx, if_neg hpx, List.filter_cons]

theorem sortByCmp_filter {cmp : FileNode → FileNode → Int}
    (hneg : ∀ a b, cmp a b = - cmp b a)
    (hzt : ∀ a b c, cmp a b = 0 → cmp b c = 0 → cmp a c = 0)
    (z : FileNode) :
    ∀ l : List FileNode,
      (sortByCmp cmp l).filter (fun y => cmp y z == 0) =
        l.filter (fun y => cmp y z == 0) := by
  intro l
  induction l with
  | nil => rfl
  | cons x xs ih =>
    unfold sortByCmp
    rw [filter_insertSorted hneg hzt x z, List.filter_cons]
    by_cases hpx : (cmp x z == 0) = true
    · rw [if_pos hpx, if_pos hpx, ih]
    · rw [if_neg hpx, if_neg hpx, ih]

/-- C7: the projected listing is a permutation of the filtered membership
list in which every folder precedes every non-folder regardless of sort key
and direction; within the two groups the configured key orders neighbours in
the configured direction; and nodes comparing equal under the sort comparator
(same group and equal key value — the same equivalence for both directions)
keep exactly their prior relative order, the sort being stable. -/
theorem claimC7_sort (s : Store) (currentPath term : Str) (cfg : SortConfig) :
    List.Perm (currentFiles s currentPath term cfg)
      (searchFiltered (filesInDir s currentPath) term) ∧
    (currentFiles s currentPath term cfg).Pairwise
      (fun a b => b.type = FileType.folder → a.type = FileType.folder) ∧
    (currentFiles s currentPath term cfg).Pairwise
      (fun a b => (a.type = FileType.folder ↔ b.type = FileType.folder) →
        (if cfg.direction = SortDirection.ascending
          then keyCompare cfg.key a b ≤ 0
          else keyCompare cfg.key b a ≤ 0)) ∧
    (∀ z : FileNode,
      (currentFiles s currentPath term cfg).filter
          (fun y => nodeCompare cfg y z == 0) =
        (searchFiltered (filesInDir s currentPath) term).filter
          (fun y => nodeCompare cfg y z == 0)) := by
  have hneg := nodeCompare_neg cfg
  have htrans : ∀ a b c, nodeCompare cfg a b ≤ 0 → nodeCompare cfg b c ≤ 0 →
      nodeCompare cfg a c ≤ 0 := fun a b c h1 h2 => nodeCompare_trans_le h1 h2
  have hzt : ∀ a b c, nodeCompare cfg a b = 0 → nodeCompare cfg b c = 0 →
      nodeCompare cfg a c = 0 := fun a b c h1 h2 => nodeCompare_zero_trans h1 h2
  have hpair := sortByCmp_pairwise hneg htrans
    (searchFiltered (filesInDir s currentPath) term)
  refine ⟨?_, ?_, ?_, ?_⟩
  · exact sortByCmp_perm (nodeCompare cfg) _
  · refine hpair.imp ?_
    intro a b hab hbf
    by_contra haf
    unfold nodeCompare at hab
    rw [if_neg (fun h => haf h.1), if_pos ⟨haf, hbf⟩] at hab
    exact absurd hab (by decide)
  · refine hpair.imp ?_
    intro a b hab hiff
    have haf : ¬ (a.type = FileType.folder ∧ b.type ≠ FileType.folder) := by
      rintro ⟨h1, h2⟩
      exact h2 (hiff.mp h1)
    have hbf : ¬ (a.type ≠ FileType.folder ∧ b.type = FileType.folder) := by
      rintro ⟨h1, h2⟩
      exact h1 (hiff.mpr h2)
    unfold nodeCompare at hab
    rw [if_neg haf, if_neg hbf] at hab
    have hk := keyCompare_neg cfg.key a b
    split at hab <;> rename_i hd
    · rw [if_pos hd]
      exact hab
    · rw [if_neg hd]
      omega
  · intro z
    exact sortByCmp_filter hneg hzt z _

/-- With unique ids, the inline per-entry update of the `produce` block is the
`updTo` replacement of the looked-up node. -/
theorem map_ite_update {s : Store} (hids : (s.map (·.id)).Nodup)
    {n0 : FileNode} (h0 : n0 ∈ s) {id : Str} (hid0 : n0.id = id)
    (F : FileNode → FileNode) :
    (s.map fun f => if f.id = id then F f else f) =
      s.map (updTo n0.id (F n0)) := by
  apply List.map_congr_left
  intro f hf
  by_cases hfid : f.id = id
  · have hfeq : f = n0 := eq_of_id_eq hids hf h0 (by rw [hfid, hid0])
    rw [if_pos hfid]
    unfold updTo
    rw [if_pos (by rw [hfid, hid0]), hfeq]
  · rw [if_neg hfid]
    unfold updTo
    rw [if_neg (by rw [hid0]; exact hfid)]

/-- Pointwise description of the update-then-cascade transformation: the
looked-up node becomes `g`, a strict descendant's path is re-prefixed, and
every other node is untouched. -/
theorem updCascade_pointwise {s : Store} (hids : (s.map (·.id)).Nodup)
    {n0 g : FileNode} {np : Str} (h0 : n0 ∈ s)
    (hgid : g.id = n0.id) (hgpath : g.path = np)
    (hnoself : ¬ (n0.path ++ ['/'] <+: np)) :
    (∀ x, (cascadeRewrite n0.path np (updTo n0.id g x)).id = x.id) ∧
    cascadeRewrite n0.path np (updTo n0.id g n0) = g ∧
    (∀ f ∈ s, f ≠ n0 → ∀ t, f.path = n0.path ++ '/' :: t →
      cascadeRewrite n0.path np (updTo n0.id g f) =
        { f with path := np ++ '/' :: t }) ∧
    (∀ f ∈ s, f ≠ n0 → ¬ (n0.path ++ ['/'] <+: f.path) →
      cascadeRewrite n0.path np (updTo n0.id g f) = f) := by
  have hupd_ne : ∀ f ∈ s, f ≠ n0 → updTo n0.id g f = f := by
    intro f hf hne
    unfold updTo
    rw [if_neg fun he => hne (eq_of_id_eq hids hf h0 he)]
  refine ⟨?_, ?_, ?_, ?_⟩
  · intro x
    rw [cascadeRewrite_id]
    exact updTo_id hgid x
  · unfold updTo
    rw [if_pos rfl]
    exact cascadeRewrite_path_neg np (by rw [hgpath]; exact hnoself)
  · intro f hf hne t ht
    rw [hupd_ne f hf hne]
    unfold cascadeRewrite
    rw [if_pos (sep_ext_of_decomp ht), ht, List.drop_left]
  · intro f hf hne hout
    rw [hupd_ne f hf hne]
    exact cascadeRewrite_path_neg np hout

/-- C5: if a node is moved to some destination and then moved back to its
original parent path, and both moves succeed, then every node of the store —
the moved node, each of its descendants, and everything else — ends with the
same `path` and `parentId` it had before the first move. -/
theorem claimC5_move_roundtrip (s s1 s2 : Store) (id X P iso1 iso2 : Str)
    (n0 : FileNode) (hInv : Inv s) (hfind : findById s id = some n0)
    (hP : (n0.parentId = none ∧ P = slash) ∨
      (∃ m ∈ s, n0.parentId = some m.id ∧ m.path = P))
    (h1 : moveNode s id X iso1 = .ok s1)
    (h2 : moveNode s1 id P iso2 = .ok s2) :
    ∀ u ∈ s, ∃ u', findById s2 u.id = some u' ∧
      u'.path = u.path ∧ u'.parentId = u.parentId := by
  obtain ⟨h0, hid0⟩ := findById_eq_some hfind
  obtain ⟨hn0name, hn0slash, hn0pOK⟩ := hInv.2.2 n0 h0
  unfold moveNode at h1
  simp only [hfind] at h1
  by_cases hnf1 : X ≠ slash ∧ findNodeByPath s X = none
  · rw [if_pos hnf1] at h1
    cases h1
  rw [if_neg hnf1] at h1
  by_cases hcyc1 : n0.type = FileType.folder ∧ n0.path <+: X
  · rw [if_pos hcyc1] at h1
    cases h1
  rw [if_neg hcyc1] at h1
  by_cases hcol1 : (findNodeByPath s (joinPath X n0.name)).isSome
  · rw [if_pos hcol1] at h1
    cases h1
  rw [if_neg hcol1] at h1
  set np1 := joinPath X n0.name with hnp1def
  set g1 : FileNode := { n0 with
                         path := np1,
                         parentId := (findNodeByPath s X).map (·.id),
                         modifiedAt := iso1 } with hg1def
  have hs1 : s1 = if n0.type = FileType.folder
      then (s.map (updTo n0.id g1)).map (cascadeRewrite n0.path np1)
      else s.map (updTo n0.id g1) := by
    have h1' := (Except.ok.inj h1).symm
    rw [h1', map_ite_update hInv.1 h0 hid0]
  have hfree1 : ∀ f ∈ s, f.path ≠ np1 :=
    (findNodeByPath_eq_none (joinPath_ne_slash hn0name)).mp
      (Option.not_isSome_iff_eq_none.mp hcol1)
  have hnp1nil : np1 ≠ [] := by
    show joinPath X n0.name ≠ []
    unfold joinPath
    split <;> simp
  have hnoorph : ∀ f ∈ s, ¬ (np1 ++ ['/'] <+: f.path) :=
    no_orphan_ext hInv hnp1nil hfree1
  have hback : joinPath P n0.name = n0.path ∧
      ((P = slash ∧ n0.parentId = none) ∨
       (∃ m ∈ s, m.path = P ∧ n0.parentId = some m.id ∧
         m ≠ n0 ∧ ¬ (n0.path ++ ['/'] <+: m.path) ∧ P ≠ slash)) := by
    rcases hP with ⟨hpidn, rfl⟩ | ⟨m, hm, hpids, rfl⟩
    · rcases hn0pOK with ⟨-, hpath⟩ | ⟨m', -, hpids', -, -⟩
      · refine ⟨?_, Or.inl ⟨rfl, hpidn⟩⟩
        unfold joinPath
        rw [if_pos rfl, hpath]
      · rw [hpidn] at hpids'
        cases hpids'
    · rcases hn0pOK with ⟨hpidn, -⟩ | ⟨m', hm', hpids', hmf', hpath'⟩
      · rw [hpidn] at hpids
        cases hpids
      · have hmm : m' = m := eq_of_id_eq hInv.1 hm' hm
          (Option.some.inj (hpids'.symm.trans hpids))
        subst hmm
        have hmslash : m'.path ≠ slash := path_ne_slash hInv hm'
        have hlen := congrArg List.length hpath'
        simp at hlen
        refine ⟨?_, Or.inr ⟨m', hm', rfl, hpids, ?_, ?_, hmslash⟩⟩
        · unfold joinPath
          rw [if_neg hmslash, hpath']
        · intro he
          rw [he] at hlen
          omega
        · intro hpre
          have h3 := hpre.length_le
          simp at h3
          omega
  by_cases hfold : n0.type = FileType.folder
  · -- the moved node is a folder: both moves cascade
    rw [if_pos hfold] at hs1
    have hnoself1 : ¬ (n0.path ++ ['/'] <+: np1) := by
      show ¬ (n0.path ++ ['/'] <+: joinPath X n0.name)
      by_cases hXs : X = slash
      · subst hXs
        intro hpre
        rw [show joinPath slash n0.name = '/' :: n0.name from by
          unfold joinPath; rw [if_pos rfl]] at hpre
        exact path_ne_nil hInv h0 (sep_prefix_root hn0slash n0.path hpre)
      · intro hpre
        rw [show joinPath X n0.name = X ++ '/' :: n0.name from by
          unfold joinPath; rw [if_neg hXs]] at hpre
        rcases sep_prefix_cases hn0slash n0.path X hpre with h3 | h3
        · exact hcyc1 ⟨hfold, (List.prefix_append n0.path ['/']).trans h3⟩
        · refine hcyc1 ⟨hfold, ?_⟩
          rw [← h3]
    obtain ⟨hΨ1id, hΨ1n0, hΨ1sub, hΨ1out⟩ :=
      updCascade_pointwise (g := g1) hInv.1 h0 rfl
        (show g1.path = np1 from rfl) hnoself1
    have hg1mem : g1 ∈ s1 := by
      rw [hs1]
      exact List.mem_map.mpr ⟨updTo n0.id g1 n0, List.mem_map_of_mem _ h0, hΨ1n0⟩
    have hids1 : (s1.map (·.id)).Nodup := by
      rw [hs1, List.map_map, List.map_map]
      have h3 : s.map (((·.id) ∘ cascadeRewrite n0.path np1) ∘ updTo n0.id g1)
          = s.map (·.id) := List.map_congr_left fun f _ => hΨ1id f
      rw [h3]
      exact hInv.1
    have hfind1 : findById s1 id = some g1 := by
      rw [hs1, findById_map (fun x => cascadeRewrite_id n0.path np1 x) id,
        findById_map (updTo_id (i := n0.id) (g := g1) rfl) id, hfind]
      show some (cascadeRewrite n0.path np1 (updTo n0.id g1 n0)) = some g1
      rw [hΨ1n0]
    unfold moveNode at h2
    simp only [hfind1] at h2
    by_cases hnf2 : P ≠ slash ∧ findNodeByPath s1 P = none
    · rw [if_pos hnf2] at h2
      cases h2
    rw [if_neg hnf2] at h2
    by_cases hcyc2 : g1.type = FileType.folder ∧ g1.path <+: P
    · rw [if_pos hcyc2] at h2
      cases h2
    rw [if_neg hcyc2] at h2
    by_cases hcol2 : (findNodeByPath s1 (joinPath P g1.name)).isSome
    · rw [if_pos hcol2] at h2
      cases h2
    rw [if_neg hcol2] at h2
    set g2 : FileNode := { g1 with
                           path := joinPath P g1.name,
                           parentId := (findNodeByPath s1 P).map (·.id),
                           modifiedAt := iso2 } with hg2def
    have hg1fold : g1.type = FileType.folder := hfold
    have hs2 : s2 = (s1.map (updTo g1.id g2)).map
        (cascadeRewrite g1.path (joinPath P g1.name)) := by
      have h2' := (Except.ok.inj h2).symm
      rw [h2', map_ite_update hids1 hg1mem hid0, if_pos hg1fold]
    have hnp2 : joinPath P g1.name = n0.path := hback.1
    have hnoself2 : ¬ (g1.path ++ ['/'] <+: joinPath P g1.name) := by
      show ¬ (np1 ++ ['/'] <+: joinPath P g1.name)
      rw [hnp2]
      exact hnoorph n0 h0
    obtain ⟨hΨ2id, hΨ2n0, hΨ2sub, hΨ2out⟩ :=
      updCascade_pointwise (g := g2) hids1 hg1mem rfl
        (show g2.path = joinPath P g1.name from rfl) hnoself2
    intro u hu
    have hchain : findById s2 u.id =
        some (cascadeRewrite g1.path (joinPath P g1.name)
          (updTo g1.id g2 (cascadeRewrite n0.path np1 (updTo n0.id g1 u)))) := by
      rw [hs2, findById_map (fun x => cascadeRewrite_id _ _ x) u.id,
        findById_map (updTo_id (i := g1.id) (g := g2) rfl) u.id, hs1,
        findById_map (fun x => cascadeRewrite_id _ _ x) u.id,
        findById_map (updTo_id (i := n0.id) (g := g1) rfl) u.id,
        findById_of_mem hInv.1 hu]
      rfl
    by_cases hun : u = n0
    · rw [hun] at hchain ⊢
      refine ⟨g2, ?_, ?_, ?_⟩
      · rw [hchain, hΨ1n0, hΨ2n0]
      · show g2.path = n0.path
        exact hnp2
      · show (findNodeByPath s1 P).map (·.id) = n0.parentId
        rcases hback.2 with ⟨rfl, hpidn⟩ | ⟨m, hm, hmP, hpids, hmne, hmout, hPslash⟩
        · rw [show findNodeByPath s1 slash = none from by
            unfold findNodeByPath; rw [if_pos rfl]]
          exact hpidn.symm
        · have hmkeep : cascadeRewrite n0.path np1 (updTo n0.id g1 m) = m :=
            hΨ1out m hm hmne hmout
          have hfm1 : findNodeByPath s1 P = some m := by
            unfold findNodeByPath
            rw [if_neg hPslash]
            refine findFirstByPath_unique (m := m) ?_ hmP ?_
            · rw [hs1]
              exact List.mem_map.mpr
                ⟨updTo n0.id g1 m, List.mem_map_of_mem _ hm, hmkeep⟩
            · intro x hx hxp
              rw [hs1] at hx
              obtain ⟨y, hy, rfl⟩ := List.mem_map.mp hx
              obtain ⟨z, hz, rfl⟩ := List.mem_map.mp hy
              by_cases hzn : z = n0
              · subst hzn
                rw [hΨ1n0] at hxp ⊢
                exfalso
                have he : np1 = P := hxp
                exact hfree1 m hm (by rw [hmP, ← he])
              · by_cases hzs : n0.path ++ ['/'] <+: z.path
                · obtain ⟨tz, htz⟩ := sep_ext_decomp hzs
                  rw [hΨ1sub z hz hzn tz htz] at hxp
                  have he : np1 ++ '/' :: tz = P := hxp
                  exfalso
                  refine hnoorph m hm ?_
                  rw [hmP, ← he]
                  exact sep_ext_of_decomp rfl
                · rw [hΨ1out z hz hzn hzs] at hxp ⊢
                  exact eq_of_path_eq hInv.2.1 hz hm (by rw [hxp, hmP])
          rw [hfm1]
          exact hpids.symm
    · have hne1 : cascadeRewrite n0.path np1 (updTo n0.id g1 u) ≠ g1 := by
        intro he
        have h5 := hΨ1id u
        rw [he] at h5
        have h4 : u.id = n0.id := h5.symm
        exact hun (eq_of_id_eq hInv.1 hu h0 h4)
      have hmem1 : cascadeRewrite n0.path np1 (updTo n0.id g1 u) ∈ s1 := by
        rw [hs1]
        exact List.mem_map_of_mem _ (List.mem_map_of_mem _ hu)
      by_cases hus : n0.path ++ ['/'] <+: u.path
      · obtain ⟨tu, htu⟩ := sep_ext_decomp hus
        have hΨ1u := hΨ1sub u hu hun tu htu
        have hpath1 : (cascadeRewrite n0.path np1 (updTo n0.id g1 u)).path
            = g1.path ++ '/' :: tu := by
          rw [hΨ1u]
        have hΨ2u := hΨ2sub _ hmem1 hne1 tu hpath1
        refine ⟨_, hchain, ?_, ?_⟩
        · rw [hΨ2u]
          show joinPath P g1.name ++ '/' :: tu = u.path
          rw [hnp2]
          exact htu.symm
        · rw [hΨ2u]
          show (cascadeRewrite n0.path np1 (updTo n0.id g1 u)).parentId
            = u.parentId
          rw [hΨ1u]
      · have hΨ1u := hΨ1out u hu hun hus
        have hout2 : ¬ (g1.path ++ ['/']
            <+: (cascadeRewrite n0.path np1 (updTo n0.id g1 u)).path) := by
          rw [hΨ1u]
          show ¬ (np1 ++ ['/'] <+: u.path)
          exact hnoorph u hu
        have hΨ2u := hΨ2out _ hmem1 hne1 hout2
        refine ⟨_, hchain, ?_, ?_⟩
        · rw [hΨ2u, hΨ1u]
        · rw [hΨ2u, hΨ1u]
  · -- the moved node is a file: no cascade in either move
    rw [if_neg hfold] at hs1
    have hupd1_ne : ∀ f ∈ s, f ≠ n0 → updTo n0.id g1 f = f := by
      intro f hf hne
      unfold updTo
      rw [if_neg fun he => hne (eq_of_id_eq hInv.1 hf h0 he)]
    have hupd1_n0 : updTo n0.id g1 n0 = g1 := by
      unfold updTo
      rw [if_pos rfl]
    have hg1mem : g1 ∈ s1 := by
      rw [hs1]
      exact List.mem_map.mpr ⟨n0, h0, hupd1_n0⟩
    have hids1 : (s1.map (·.id)).Nodup := by
      rw [hs1, List.map_map]
      have h3 : s.map ((·.id) ∘ updTo n0.id g1) = s.map (·.id) :=
        List.map_congr_left fun f _ => updTo_id (i := n0.id) (g := g1) rfl f
      rw [h3]
      exact hInv.1
    have hfind1 : findById s1 id = some g1 := by
      rw [hs1, findById_map (updTo_id (i := n0.id) (g := g1) rfl) id, hfind]
      show some (updTo n0.id g1 n0) = some g1
      rw [hupd1_n0]
    unfold moveNode at h2
    simp only [hfind1] at h2
    by_cases hnf2 : P ≠ slash ∧ findNodeByPath s1 P = none
    · rw [if_pos hnf2] at h2
      cases h2
    rw [if_neg hnf2] at h2
    rw [if_neg (fun h => hfold h.1)] at h2
    by_cases hcol2 : (findNodeByPath s1 (joinPath P g1.name)).isSome
    · rw [if_pos hcol2] at h2
      cases h2
    rw [if_neg hcol2] at h2
    set g2 : FileNode := { g1 with
                           path := joinPath P g1.name,
                           parentId := (findNodeByPath s1 P).map (·.id),
                           modifiedAt := iso2 } with hg2def
    have hs2 : s2 = s1.map (updTo g1.id g2) := by
      have h2' := (Except.ok.inj h2).symm
      rw [h2', map_ite_update hids1 hg1mem hid0,
        if_neg (show ¬ g1.type = FileType.folder from hfold)]
    have hnp2 : joinPath P g1.name = n0.path := hback.1
    have hupd2_ne : ∀ f ∈ s1, f ≠ g1 → updTo g1.id g2 f = f := by
      intro f hf hne
      unfold updTo
      rw [if_neg fun he => hne (eq_of_id_eq hids1 hf hg1mem he)]
    have hupd2_g1 : updTo g1.id g2 g1 = g2 := by
      unfold updTo
      rw [if_pos rfl]
    intro u hu
    have hchain : findById s2 u.id =
        some (updTo g1.id g2 (updTo n0.id g1 u)) := by
      rw [hs2, findById_map (updTo_id (i := g1.id) (g := g2) rfl) u.id, hs1,
        findById_map (updTo_id (i := n0.id) (g := g1) rfl) u.id,
        findById_of_mem hInv.1 hu]
      rfl
    by_cases hun : u = n0
    · rw [hun] at hchain ⊢
      refine ⟨g2, ?_, ?_, ?_⟩
      · rw [hchain, hupd1_n0, hupd2_g1]
      · show g2.path = n0.path
        exact hnp2
      · show (findNodeByPath s1 P).map (·.id) = n0.parentId
        rcases hback.2 with ⟨rfl, hpidn⟩ | ⟨m, hm, hmP, hpids, hmne, hmout, hPslash⟩
        · rw [show findNodeByPath s1 slash = none from by
            unfold findNodeByPath; rw [if_pos rfl]]
          exact hpidn.symm
        · have hmkeep : updTo n0.id g1 m = m := hupd1_ne m hm hmne
          have hfm1 : findNodeByPath s1 P = some m := by
            unfold findNodeByPath
            rw [if_neg hPslash]
            refine findFirstByPath_unique (m := m) ?_ hmP ?_
            · rw [hs1]
              exact List.mem_map.mpr ⟨m, hm, hmkeep⟩
            · intro x hx hxp
              rw [hs1] at hx
              obtain ⟨z, hz, rfl⟩ := List.mem_map.mp hx
              by_cases hzn : z = n0
              · subst hzn
                rw [hupd1_n0] at hxp ⊢
                exfalso
                have he : np1 = P := hxp
                exact hfree1 m hm (by rw [hmP, ← he])
              · rw [hupd1_ne z hz hzn] at hxp ⊢
                exact eq_of_path_eq hInv.2.1 hz hm (by rw [hxp, hmP])
          rw [hfm1]
          exact hpids.symm
    · have hu1 : updTo n0.id g1 u = u := hupd1_ne u hu hun
      have hne1 : u ≠ g1 := by
        intro he
        have h4 : u.id = n0.id := by rw [he]
        exact hun (eq_of_id_eq hInv.1 hu h0 h4)
      have hmem1 : u ∈ s1 := by
        rw [hs1]
        exact List.mem_map.mpr ⟨u, hu, hu1⟩
      refine ⟨u, ?_, rfl, rfl⟩
      rw [hchain, hu1, hupd2_ne u hmem1 hne1]

/-- Root folder `/docs` (fixture for C5). -/
def c5Docs : FileNode :=
  { id := "d".data, name := "docs".data, type := FileType.folder,
    path := "/docs".data, parentId := none, modifiedAt := "T".data,
    size := 0, content := none, url := none }

/-- Subfolder `/docs/sub`, the node moved away and back (fixture for C5). -/
def c5Sub : FileNode :=
  { id := "s".data, name := "sub".data, type := FileType.folder,
    path := "/docs/sub".data, parentId := some ("d".data),
    modifiedAt := "T".data, size := 0, content := none, url := none }

/-- File `/docs/sub/f`, a descendant carried along by both moves (fixture
for C5). -/
def c5File : FileNode :=
  { id := "f".data, name := "f".data, type := FileType.text,
    path := "/docs/sub/f".data, parentId := some ("s".data),
    modifiedAt := "T".data, size := 0, content := some [], url := none }

/-- Store before the C5 round trip. -/
def c5Store : Store := [c5Docs, c5Sub, c5File]

/-- Store after moving `/docs/sub` to the root (fixture for C5). -/
def c5Mid : Store :=
  [c5Docs,
   { id := "s".data, name := "sub".data, type := FileType.folder,
     path := "/sub".data, parentId := none, modifiedAt := "T2".data,
     size := 0, content := none, url := none },
   { id := "f".data, name := "f".data, type := FileType.text,
     path := "/sub/f".data, parentId := some ("s".data),
     modifiedAt := "T".data, size := 0, content := some [], url := none }]

/-- Store after moving `/sub` back under `/docs` (fixture for C5). -/
def c5Back : Store :=
  [c5Docs,
   { id := "s".data, name := "sub".data, type := FileType.folder,
     path := "/docs/sub".data, parentId := some ("d".data),
     modifiedAt := "T3".data, size := 0, content := none, url := none },
   { id := "f".data, name := "f".data, type := FileType.text,
     path := "/docs/sub/f".data, parentId := some ("s".data),
     modifiedAt := "T".data, size := 0, content := some [], url := none }]

/-- C5 witness: the round-trip theorem applied to a concrete store — folder
`/docs/sub` is moved to the root and back under `/docs`, and the descendant
file recovers its original path and parent. -/
theorem claimC5_witness :
    ∃ u', findById c5Back c5File.id = some u' ∧
      u'.path = c5File.path ∧ u'.parentId = c5File.parentId :=
  claimC5_move_roundtrip c5Store c5Mid c5Back ("s".data) slash ("/docs".data)
    ("T2".data) ("T3".data) c5Sub (by decide) (by decide)
    (Or.inr ⟨c5Docs, by decide, by decide, by decide⟩)
    (by decide) (by decide) c5File (by decide)

end FileManager
